import Mathlib

/-!
Verification development for the luau-extended marshaling libraries
(`src/VM/src/ljsonlib.cpp`, `src/VM/src/lyamllib.cpp`, `src/VM/src/lxmllib.cpp`
and the TOML converter in `src/unnamed/part_000`).

The C++ sources walk Lua tables through the Lua C API.  We shallow-embed the
values those walks observe:

* a Lua table is an association list of `(key, value)` pairs; `lua_next`
  enumerates the pairs in list order (Lua's iteration order is unspecified,
  the list fixes one), `lua_rawget`/`lua_gettable` return the first pair with
  an equal key, and an absent key reads as `nil`;
* Lua numbers (C doubles) are modelled as `Rat`; the only operations the
  sources perform on them are equality, truncation to integer
  (`lua_tointeger`, truncation toward zero) and the integer-exactness test
  `(lua_Number)(lua_Integer)kn == kn`, all of which `Rat` models exactly;
* Lua strings are byte sequences modelled as `String`; reading a string
  through `lua_tostring` and then treating it as a C string keeps only the
  prefix before the first NUL byte (`cstr` below);
* `lua_objlen` returns a border of the table.  The model fixes the border to
  the length of the dense prefix (the largest `n` such that keys `1..n` are
  all present with non-nil values), which is always a valid border; the
  sources separately re-check density of `1..len`, so the classification
  results do not depend on the border choice.

For the cycle-guard claims a second, heap-based embedding is used further
below, where tables are named by indices into a heap, so that cyclic and
shared structures are expressible.
-/

/-- Reading a Lua string as a C string (`lua_tostring` used as `const char*`):
only the bytes before the first NUL are kept. -/
def cstr (s : String) : String := String.mk (s.data.takeWhile (fun c => c ≠ '\x00'))

/-- `true` when the string contains no NUL byte (then `cstr` is the identity). -/
def noNulB (s : String) : Bool := s.data.all (fun c => c ≠ '\x00')

/-- The rational `i/1`, built without normalization so that the kernel can
evaluate it. -/
def ratInt (i : Int) : Rat := ⟨i, 1, Nat.one_ne_zero, Nat.coprime_one_right _⟩

/-- `lua_tointeger` applied to a number: C cast from double to integer,
truncation toward zero. -/
def ratTrunc (q : Rat) : Int := q.num.tdiv q.den

/-- The check `(lua_Number)(lua_Integer)kn == kn` from the YAML `is_array`:
casting the truncation back reproduces the double exactly iff the rational is
an integer, i.e. its reduced denominator is 1. -/
def isExactInt (q : Rat) : Bool := q.den == 1

/-- Lua table keys occurring in the claims: numbers and strings.  (Lua also
allows booleans, tables, … as keys; none of the claims needs them, and the
sources reject or never meet them.) -/
inductive LKey where
  | num (q : Rat)
  | str (s : String)
deriving DecidableEq

/-- Lua string→number coercion as used by `lua_tointeger` on a string key
(TOML `is_array` reaches that case): a loose model parsing decimal digits,
yielding 0 when the string is not a plain number — the TOML classifier
rejects the key for every possible result, so no claim depends on the exact
value. -/
def strCoerceInt (s : String) : Int :=
  if s.data ≠ [] ∧ s.data.all (fun c => c.isDigit) then
    s.data.foldl (fun acc c => acc * 10 + (Int.ofNat c.toNat - 48)) 0
  else 0

/-- `lua_tointeger` on a table key of the model. -/
def luaKeyToInt : LKey → Int
  | .num q => ratTrunc q
  | .str s => strCoerceInt s

/-- `lua_tostring` on a number: `%.14g` formatting, modelled loosely (no claim
depends on the produced text, only on it being a string). -/
def numToStr (q : Rat) : String :=
  if q.den = 1 then toString q.num else toString q.num ++ "/" ++ toString q.den

/-- The string a key converts to via `lua_tostring` (numbers coerce). -/
def luaKeyStr : LKey → String
  | .num q => numToStr q
  | .str s => cstr s

/-- Values the Lua C API hands to the encoders (tree-shaped embedding). -/
inductive LuaVal where
  | nil
  | boolean (b : Bool)
  | num (q : Rat)
  | str (s : String)
  | table (t : List (LKey × LuaVal))

abbrev Tbl := List (LKey × LuaVal)

/-- `lua_rawget`: first pair with an equal key. -/
def tget {α} : List (LKey × α) → LKey → Option α
  | [], _ => none
  | (k', v) :: rest, k => if k' = k then some v else tget rest k

def LuaVal.isNilV : LuaVal → Bool
  | .nil => true
  | _ => false

/-- `lua_rawgeti`: integer-key lookup, absent keys read as `nil`. -/
def rawgeti (t : Tbl) (i : Nat) : LuaVal :=
  (tget t (.num (ratInt i))).getD .nil

/-- `lua_rawgeti i` followed by `lua_isnil`, for a generic value type. -/
def presentNN {α} (isNil : α → Bool) (t : List (LKey × α)) (i : Nat) : Bool :=
  match tget t (.num (ratInt i)) with
  | some v => !isNil v
  | none => false

/-- Helper computing the dense-prefix border: extends `n` while key `n+1` is
present with a non-nil value. -/
def denseFrom {α} (isNil : α → Bool) (t : List (LKey × α)) : Nat → Nat → Nat
  | n, 0 => n
  | n, fuel+1 => if presentNN isNil t (n+1) then denseFrom isNil t (n+1) fuel else n

/-- Model of `lua_objlen`: the dense-prefix length, which is always a border
(`t[len] ≠ nil` and `t[len+1] = nil`, or `0` when `t[1] = nil`). -/
def lua_objlen {α} (isNil : α → Bool) (t : List (LKey × α)) : Nat :=
  denseFrom isNil t 0 t.length

/-- `is_array` from `src/VM/src/ljsonlib.cpp:131`: empty tables are **not**
arrays (`return false; // empty object`); otherwise keys 1..len must be
present and non-nil and every key must be a number whose `lua_tointeger`
truncation lies in `[1, len]` (no integer-exactness check). -/
def jsonIsArrayG {α} (isNil : α → Bool) (t : List (LKey × α)) : Bool :=
  if lua_objlen isNil t == 0 && t.isEmpty then false
  else
    ((List.range (lua_objlen isNil t)).all fun i => presentNN isNil t (i+1)) &&
    (t.all fun kv =>
      match kv.1 with
      | .num q =>
          decide (1 ≤ ratTrunc q) && decide (ratTrunc q ≤ (lua_objlen isNil t : Int))
      | .str _ => false)

/-- `is_array` from `src/VM/src/lyamllib.cpp:11`: empty tables **are** arrays
(`return true; // empty map`); otherwise keys 1..len must be present and
non-nil and every key must be a number that is an exact integer
(`(lua_Number)k != kn` check) in `[1, len]`. -/
def yamlIsArrayG {α} (isNil : α → Bool) (t : List (LKey × α)) : Bool :=
  if t.isEmpty then true
  else
    ((List.range (lua_objlen isNil t)).all fun i => presentNN isNil t (i+1)) &&
    (t.all fun kv =>
      match kv.1 with
      | .num q =>
          isExactInt q && decide (1 ≤ ratTrunc q) &&
            decide (ratTrunc q ≤ (lua_objlen isNil t : Int))
      | .str _ => false)

/-- `is_array` from `src/unnamed/part_000:80` (TOML): the loop rejects a key
when `lua_type(L,-2) == LUA_TNUMBER || lua_tointeger(L,-2) < 1 ||
lua_tointeger(L,-2) > len` — note the `==` where the JSON/YAML classifiers
have `!=`. -/
def tomlIsArrayG {α} (isNil : α → Bool) (t : List (LKey × α)) : Bool :=
  t.all fun kv =>
    !((match kv.1 with | .num _ => true | .str _ => false) ||
      decide (luaKeyToInt kv.1 < 1) ||
      decide ((lua_objlen isNil t : Int) < luaKeyToInt kv.1))

def jsonIsArray (t : Tbl) : Bool := jsonIsArrayG LuaVal.isNilV t
def yamlIsArray (t : Tbl) : Bool := yamlIsArrayG LuaVal.isNilV t
def tomlIsArray (t : Tbl) : Bool := tomlIsArrayG LuaVal.isNilV t

/-- Modelled from the spec (§4.1): the canonical classifier rule — every key
present is an exact integer within `[1, len]`, `len` the dense-prefix length.
Used to compare the implemented classifiers against the spec's words. -/
def specIsSequence (t : Tbl) : Bool :=
  t.all fun kv =>
    match kv.1 with
    | .num q =>
        isExactInt q && decide (1 ≤ ratTrunc q) &&
          decide (ratTrunc q ≤ (lua_objlen LuaVal.isNilV t : Int))
    | .str _ => false

/-- Modelled from the spec (§4.1, TOML note): the looser TOML rule — rejects
only keys that are non-numeric or whose integer value is outside `[1, len]`,
with no density check. -/
def tomlLooseSpec (t : Tbl) : Bool :=
  t.all fun kv =>
    match kv.1 with
    | .num q =>
        decide (1 ≤ ratTrunc q) &&
          decide (ratTrunc q ≤ (lua_objlen LuaVal.isNilV t : Int))
    | .str _ => false

-- Sanity checks of the classifiers on the spec's examples.
example :
    jsonIsArray [(.num (ratInt 1), .str ("a")), (.num (ratInt 2), .str ("b")),
      (.num (ratInt 3), .str ("c"))] = true := by decide
example :
    jsonIsArray [(.num (ratInt 1), .str ("a")), (.num (ratInt 3), .str ("c"))] = false := by
  decide
example :
    yamlIsArray [(.num (ratInt 1), .str ("a")), (.num (ratInt 3), .str ("c"))] = false := by
  decide
example : jsonIsArray [] = false := by decide
example : yamlIsArray [] = true := by decide
example : tomlIsArray [(.num (ratInt 1), .str ("x"))] = false := by decide
example : tomlIsArray [] = true := by decide

/-! ## JSON encoder (`src/VM/src/ljsonlib.cpp:186`–`248`)

The target type models `nlohmann::json` trees.  `obj[key] = v`
(`encode_table`, line 217) is modelled by `assocUpd`: replace the value of an
existing key in place, otherwise append.  (The real `nlohmann::json` object is
a `std::map`, which additionally sorts keys when dumping; no claim below
depends on object ordering, and the round-trip theorem states value-equality,
which is order-insensitive.)

The source's array branch runs `for i in 1..len: encode_value(t[i])`; the
embedding first encodes every entry's value structurally (`jsonEntries`) and
then selects indices `1..len` by key lookup — `lua_rawgeti` returns exactly
an entry's value, so the composed function is the same, and the tree encoder
is total (on the modelled key/value universe the source's error paths —
non-string-coercible keys, unsupported value types — are unreachable, and the
cycle guard never fires on tree-shaped input; the heap embedding below keeps
the guard). -/

def assocUpd {β} : List (String × β) → String → β → List (String × β)
  | [], k, v => [(k, v)]
  | (k', v') :: rest, k, v =>
    if k' = k then (k, v) :: rest else (k', v') :: assocUpd rest k v

inductive Json where
  | null
  | jb (b : Bool)
  | jn (q : Rat)
  | js (s : String)
  | jarr (xs : List Json)
  | jobj (kvs : List (String × Json))

/-- Select the encoded values at indices `1..len` (the source's
`lua_rawgeti` loop of the array branch). -/
def jsonArrOf (enc : List (LKey × Json)) (len : Nat) : List Json :=
  (List.range len).map fun i => (tget enc (.num (ratInt ((i+1 : Nat) : Int)))).getD .null

/-- The source's `lua_next` loop of the object branch: insert every entry
under its string-coerced key. -/
def jsonObjOf (enc : List (LKey × Json)) : List (String × Json) :=
  enc.foldl (fun acc kv => assocUpd acc (luaKeyStr kv.1) kv.2) []

mutual

/-- `encode_value` (`ljsonlib.cpp:225`): nil→null, booleans, numbers, strings
(read as C strings: `std::string(lua_tostring(..))`), tables via
`encode_table` (`ljsonlib.cpp:186`), whose body is inlined in the table case
so that the recursion stays structural. -/
def encode_value : LuaVal → Json
  | .nil => .null
  | .boolean b => .jb b
  | .num q => .jn q
  | .str s => .js (cstr s)
  | .table t =>
    if jsonIsArray t then .jarr (jsonArrOf (jsonEntries t) (lua_objlen LuaVal.isNilV t))
    else .jobj (jsonObjOf (jsonEntries t))

def jsonEntries : Tbl → List (LKey × Json)
  | [] => []
  | (k, v) :: rest => (k, encode_value v) :: jsonEntries rest

end

/-- `encode_table` (`ljsonlib.cpp:186`) as a named entry point. -/
def encode_table (t : Tbl) : Json := encode_value (.table t)

/-- Compact `dump()` of the external JSON library, modelled from its contract.
Number formatting and control-character escaping are modelled loosely (no
claim depends on them); `\x7b`/`\x7d` are the brace characters. -/
def jsonEscChar (c : Char) : String :=
  if c = '"' then "\\\"" else if c = '\\' then "\\\\" else String.singleton c

def jsonDumpStr (s : String) : String :=
  "\"" ++ s.data.foldl (fun acc c => acc ++ jsonEscChar c) ("") ++ "\""

mutual

def jsonDump : Json → String
  | .null => "null"
  | .jb true => "true"
  | .jb false => "false"
  | .jn q => numToStr q
  | .js s => jsonDumpStr s
  | .jarr xs => "[" ++ jsonDumpL xs ++ "]"
  | .jobj kvs => "\x7b" ++ jsonDumpO kvs ++ "\x7d"

def jsonDumpL : List Json → String
  | [] => ""
  | [x] => jsonDump x
  | x :: y :: xs => jsonDump x ++ "," ++ jsonDumpL (y :: xs)

def jsonDumpO : List (String × Json) → String
  | [] => ""
  | [(k, v)] => jsonDumpStr k ++ ":" ++ jsonDump v
  | (k, v) :: e :: kvs => jsonDumpStr k ++ ":" ++ jsonDump v ++ "," ++ jsonDumpO (e :: kvs)

end

/-- `jsonserialize` (`ljsonlib.cpp:250`): the argument must be a table; encode
it and dump the tree to text. -/
def jsonserialize (t : Tbl) : String := jsonDump (encode_value (.table t))

/-! ## YAML encoder (`src/VM/src/lyamllib.cpp:153`–`234`) -/

inductive YNode where
  | null
  | yb (b : Bool)
  | yn (q : Rat)
  | ys (s : String)
  | yseq (xs : List YNode)
  | ymap (kvs : List (String × YNode))

def yamlArrOf (enc : List (LKey × YNode)) (len : Nat) : List YNode :=
  (List.range len).map fun i => (tget enc (.num (ratInt ((i+1 : Nat) : Int)))).getD .null

mutual

/-- `encode_lua_value` (`lyamllib.cpp:207`): nil→YAML null (the sequence
branch reaches this for nil elements), booleans, numbers as doubles, strings
read as C strings; the table case inlines `encode_lua_table`
(`lyamllib.cpp:155`): the array branch pushes elements `1..len`, the map
branch iterates `lua_next`, **skips entries whose value is nil** (lines
191–195) and inserts the rest under their string key. -/
def encode_lua_value : LuaVal → YNode
  | .nil => .null
  | .boolean b => .yb b
  | .num q => .yn q
  | .str s => .ys (cstr s)
  | .table t =>
    if yamlIsArray t then .yseq (yamlArrOf (yamlEntries t) (lua_objlen LuaVal.isNilV t))
    else .ymap (yamlMapGo t [])

def yamlEntries : Tbl → List (LKey × YNode)
  | [] => []
  | (k, v) :: rest => (k, encode_lua_value v) :: yamlEntries rest

/-- The map branch's `lua_next` loop with its nil-skip. -/
def yamlMapGo : Tbl → List (String × YNode) → List (String × YNode)
  | [], acc => acc
  | (k, v) :: rest, acc =>
    if v.isNilV then yamlMapGo rest acc
    else yamlMapGo rest (assocUpd acc (luaKeyStr k) (encode_lua_value v))

end

/-- `encode_lua_table` (`lyamllib.cpp:155`) as a named entry point. -/
def yaml_encode_table (t : Tbl) : YNode := encode_lua_value (.table t)

/-! ## Dense-prefix facts and the classifier theorems (claims C2, C3, C5) -/

theorem denseFrom_present {α} (isNil : α → Bool) (t : List (LKey × α)) :
    ∀ fuel n i, n ≤ i → i < denseFrom isNil t n fuel →
      presentNN isNil t (i+1) = true := by
  intro fuel
  induction fuel with
  | zero => intro n i hni hlt; simp only [denseFrom] at hlt; omega
  | succ fuel ih =>
    intro n i hni hlt
    by_cases h : presentNN isNil t (n+1) = true
    · rw [denseFrom, if_pos h] at hlt
      rcases Nat.eq_or_lt_of_le hni with rfl | hlt2
      · exact h
      · exact ih (n+1) i hlt2 hlt
    · rw [denseFrom, if_neg h] at hlt; omega

theorem objlen_present {α} (isNil : α → Bool) (t : List (LKey × α)) (i : Nat)
    (h : i < lua_objlen isNil t) : presentNN isNil t (i+1) = true :=
  denseFrom_present isNil t t.length 0 i (Nat.zero_le i) h

/-- The source's hole check over `1..len` always succeeds for the dense-prefix
border. -/
theorem range_all_present {α} (isNil : α → Bool) (t : List (LKey × α)) :
    ((List.range (lua_objlen isNil t)).all fun i => presentNN isNil t (i+1)) = true := by
  rw [List.all_eq_true]
  intro i hi
  exact objlen_present isNil t i (List.mem_range.mp hi)

theorem all_congrB {α} {p q : α → Bool} :
    ∀ l : List α, (∀ x ∈ l, p x = q x) → l.all p = l.all q := by
  intro l h
  induction l with
  | nil => rfl
  | cons x xs ih =>
    simp only [List.all_cons]
    rw [h x (List.mem_cons_self x xs), ih fun y hy => h y (List.mem_cons_of_mem x hy)]

/-- On non-empty tables the YAML classifier is exactly the spec's §4.1 rule. -/
theorem yamlIsArray_eq_spec (t : Tbl) (h : t ≠ []) : yamlIsArray t = specIsSequence t := by
  have hne : ¬ (t.isEmpty = true) := by
    simpa [List.isEmpty_iff] using h
  unfold yamlIsArray yamlIsArrayG specIsSequence
  rw [if_neg hne, range_all_present, Bool.true_and]

/-- The rule the JSON classifier implements on non-empty tables: every key a
number whose truncation lies in `[1, len]` — no integer-exactness test. -/
def jsonTruncRule (t : Tbl) : Bool :=
  t.all fun kv =>
    match kv.1 with
    | .num q =>
        decide (1 ≤ ratTrunc q) &&
          decide (ratTrunc q ≤ (lua_objlen LuaVal.isNilV t : Int))
    | .str _ => false

theorem jsonIsArray_eq_trunc (t : Tbl) (h : t ≠ []) : jsonIsArray t = jsonTruncRule t := by
  have hne : t.isEmpty = false := by
    simp [List.isEmpty_iff, h]
  unfold jsonIsArray jsonIsArrayG jsonTruncRule
  rw [hne, Bool.and_false, if_neg (by simp), range_all_present, Bool.true_and]

/-- Every key is an exact integer or a string. -/
def allKeysExactOrStr (t : Tbl) : Bool :=
  t.all fun kv =>
    match kv.1 with
    | .num q => isExactInt q
    | .str _ => true

/-- A number key whose double value is not an exact integer, `1.5`. -/
def q3half : Rat := ⟨3, 2, by decide, by decide⟩

/-- Claim C2 (amended): for non-empty tables the YAML classifier implements
the spec's §4.1 rule exactly; the JSON classifier implements it with the key
integrality check relaxed to `lua_tointeger` truncation; on tables all of
whose numeric keys are exact integers the two agree, and the claim's two
examples classify as stated in both encoders. -/
theorem c2_classifier_rules :
    (∀ t : Tbl, t ≠ [] → yamlIsArray t = specIsSequence t) ∧
    (∀ t : Tbl, t ≠ [] → jsonIsArray t = jsonTruncRule t) ∧
    (∀ t : Tbl, t ≠ [] → allKeysExactOrStr t = true → jsonIsArray t = yamlIsArray t) ∧
    (jsonIsArray [(.num (ratInt 1), .str ("a")), (.num (ratInt 2), .str ("b")),
        (.num (ratInt 3), .str ("c"))] = true ∧
      yamlIsArray [(.num (ratInt 1), .str ("a")), (.num (ratInt 2), .str ("b")),
        (.num (ratInt 3), .str ("c"))] = true ∧
      jsonIsArray [(.num (ratInt 1), .str ("a")), (.num (ratInt 3), .str ("c"))] = false ∧
      yamlIsArray [(.num (ratInt 1), .str ("a")), (.num (ratInt 3), .str ("c"))] = false) := by
  refine ⟨yamlIsArray_eq_spec, jsonIsArray_eq_trunc, ?_, by decide, by decide, by decide, by decide⟩
  intro t h hk
  rw [jsonIsArray_eq_trunc t h, yamlIsArray_eq_spec t h]
  unfold jsonTruncRule specIsSequence
  refine all_congrB t fun kv hkv => ?_
  rcases kv with ⟨k, v⟩
  match k with
  | .str s => rfl
  | .num q =>
    have : isExactInt q = true := by
      have := (List.all_eq_true.mp hk) _ hkv
      simpa using this
    simp only [this, Bool.true_and]

theorem c2_classifier_rules_witness :
    yamlIsArray [(.str ("k"), .num (ratInt 1))]
        = specIsSequence [(.str ("k"), .num (ratInt 1))] ∧
      jsonIsArray [(.str ("k"), .num (ratInt 1))]
        = jsonTruncRule [(.str ("k"), .num (ratInt 1))] ∧
      jsonIsArray [(.num (ratInt 1), .boolean true)]
        = yamlIsArray [(.num (ratInt 1), .boolean true)] :=
  ⟨c2_classifier_rules.1 _ (List.cons_ne_nil _ _),
   c2_classifier_rules.2.1 _ (List.cons_ne_nil _ _),
   c2_classifier_rules.2.2.1 _ (List.cons_ne_nil _ _) (by decide)⟩

/-- Claim C2, counterexample: the table with keys `1` and `1.5` is an array
for the JSON classifier (truncation puts `1.5` in range) but a mapping for the
YAML classifier and for the spec's rule — the one rule is **not** applied
identically. -/
theorem c2_counterexample :
    jsonIsArray [(.num (ratInt 1), .str ("a")), (.num q3half, .str ("b"))] = true ∧
      yamlIsArray [(.num (ratInt 1), .str ("a")), (.num q3half, .str ("b"))] = false ∧
      specIsSequence [(.num (ratInt 1), .str ("a")), (.num q3half, .str ("b"))] = false := by
  refine ⟨by decide, by decide, by decide⟩

/-- Claim C3 (amended): the empty table classifies as an empty Sequence in the
YAML encoder only; the JSON encoder classifies it as an empty Mapping and
`serialize({})` produces the object text. -/
theorem c3_empty_table :
    jsonIsArray [] = false ∧ encode_table [] = .jobj [] ∧
      jsonserialize [] = "\x7b\x7d" ∧
      yamlIsArray [] = true ∧ yaml_encode_table [] = .yseq [] :=
  ⟨rfl, rfl, rfl, rfl, rfl⟩

/-- Claim C3, counterexample: `serialize({})` in JSON yields `"{}"`, which is
not the claimed empty-array text `"[]"`. -/
theorem c3_counterexample : jsonserialize [] = "\x7b\x7d" ∧ "\x7b\x7d" ≠ "[]" :=
  ⟨rfl, by decide⟩

def keyIsNumB : LKey → Bool
  | .num _ => true
  | .str _ => false

theorem tget_num_none_of_all_str {α} (t : List (LKey × α))
    (h : ∀ kv ∈ t, keyIsNumB kv.1 = false) (q : Rat) : tget t (.num q) = none := by
  induction t with
  | nil => rfl
  | cons kv rest ih =>
    rcases kv with ⟨k, v⟩
    have hk := h (k, v) (List.mem_cons_self _ _)
    match k with
    | .str s =>
      rw [tget, if_neg (by simp)]
      exact ih fun kv hkv => h kv (List.mem_cons_of_mem _ hkv)
    | .num q' => simp [keyIsNumB] at hk

theorem objlen_zero_of_all_str {α} (isNil : α → Bool) (t : List (LKey × α))
    (h : ∀ kv ∈ t, keyIsNumB kv.1 = false) : lua_objlen isNil t = 0 := by
  unfold lua_objlen
  match ht : t.length with
  | 0 => rfl
  | n+1 =>
    rw [denseFrom, if_neg ?_]
    unfold presentNN
    rw [tget_num_none_of_all_str t h]
    simp

/-- The TOML `is_array` accepts exactly the empty table: the `==` in its
reject condition makes every numeric key fail, and without numeric keys the
length is 0 so every string key is out of range as well. -/
theorem tomlIsArrayG_eq_isEmpty {α} (isNil : α → Bool) (t : List (LKey × α)) :
    tomlIsArrayG isNil t = t.isEmpty := by
  match t with
  | [] => rfl
  | kv₀ :: rest =>
    simp only [List.isEmpty_cons]
    by_cases hstr : ∀ kv ∈ kv₀ :: rest, keyIsNumB kv.1 = false
    · have hzero := objlen_zero_of_all_str isNil (kv₀ :: rest) hstr
      unfold tomlIsArrayG
      rw [hzero, List.all_cons]
      have h0 := hstr kv₀ (List.mem_cons_self _ _)
      rcases kv₀ with ⟨k, v⟩
      match k with
      | .str s =>
        rcases lt_or_le (strCoerceInt s) 1 with h1 | h1
        · simp [luaKeyToInt, h1]
        · have h2 : ((0 : Nat) : Int) < strCoerceInt s := by
            simpa using h1
          simp only [luaKeyToInt, Bool.and_eq_false_iff]
          left
          simp only [Bool.not_eq_false', Bool.or_eq_true, decide_eq_true_eq]
          exact Or.inr h2
      | .num q => simp [keyIsNumB] at h0
    · push_neg at hstr
      rcases hstr with ⟨kv, hmem, hnum⟩
      unfold tomlIsArrayG
      rw [Bool.eq_false_iff]
      intro hall
      have := (List.all_eq_true.mp hall) kv hmem
      rcases kv with ⟨k, v⟩
      match k with
      | .num q => simp at this
      | .str s => simp [keyIsNumB] at hnum

/-- Claim C5 (the code bug): the TOML classifier rejects `{[1]="x"}` as an
array even though every key is numeric and in `[1, len]`; the spec's loose
rule accepts it.  In fact the implemented classifier accepts exactly the empty
table. -/
theorem c5_toml_is_array_bug :
    tomlIsArray [(.num (ratInt 1), .str ("x"))] = false ∧
      tomlLooseSpec [(.num (ratInt 1), .str ("x"))] = true ∧
      (∀ t : Tbl, tomlIsArray t = t.isEmpty) :=
  ⟨by decide, by decide, fun t => tomlIsArrayG_eq_isEmpty LuaVal.isNilV t⟩

/-! ## Claim C7: YAML nil handling -/

/-- Claim C7: the YAML encoder maps a nil value to the YAML null node (this is
the code path sequence elements take), while the mapping branch drops entries
whose value is nil — folding the entries is the same as folding only the
non-nil entries — and all non-nil entries are inserted unchanged (concrete
instance in the last conjunct). -/
theorem c7_yaml_nil_handling :
    encode_lua_value .nil = YNode.null ∧
      (∀ (t : Tbl) (acc : List (String × YNode)),
        yamlMapGo t acc = yamlMapGo (t.filter fun kv => !kv.2.isNilV) acc) ∧
      yaml_encode_table [(.str ("a"), .nil), (.str ("b"), .num (ratInt 1))]
        = .ymap [("b", .yn (ratInt 1))] := by
  refine ⟨rfl, ?_, rfl⟩
  intro t
  induction t with
  | nil => intro acc; rfl
  | cons kv rest ih =>
    intro acc
    rcases kv with ⟨k, v⟩
    by_cases hv : v.isNilV = true
    · rw [List.filter_cons_of_neg (by simp [hv]), yamlMapGo, if_pos hv]
      exact ih acc
    · rw [List.filter_cons_of_pos (by simp [Bool.eq_false_iff.mpr hv]),
        yamlMapGo, yamlMapGo, if_neg hv, if_neg hv]
      exact ih _

/-! ## Claim C8: YAML scalar decoding (`lyamllib.cpp:97`–`150`) -/

theorem getD_mem_of_lt {α} (l : List α) (d : α) :
    ∀ t, t < l.length → l.getD t d ∈ l := by
  induction l with
  | nil => intro t ht; simp at ht
  | cons x xs ih =>
    intro t ht
    cases t with
    | zero => exact List.mem_cons_self _ _
    | succ t =>
      show xs.getD t d ∈ x :: xs
      exact List.mem_cons_of_mem _ (ih t (by simpa using ht))

/-- `parse_number` (`lyamllib.cpp:97`): `strtod` is the C library's numeric
parser, abstracted as a parameter `stv` returning the parsed value and the
number of characters consumed (`end - s.c_str()`).  The source accepts when
`end && *end == '\0' && end != s.c_str()`: at least one character was
consumed and the byte at `end` is a NUL — the `c_str` terminator when the
whole string was consumed, **or an embedded NUL** of the scalar (a partial
parse the code still accepts).  The byte at offset `i` of the `c_str` buffer
is `s.data.getD i '\x00'`: the character itself below `s.length`, the
terminator at `s.length`. -/
def parse_number (stv : String → Rat × Nat) (s : String) : Option Rat :=
  if s.data.getD (stv s).2 '\x00' = '\x00' ∧ (stv s).2 ≠ 0 then some (stv s).1
  else none

/-- The scalar branch of `push_yaml_node` (`lyamllib.cpp:127`–`150`): exact
full-string match against the three spellings of each boolean, then the
full-consumption numeric parse, else the text as a string. -/
def push_yaml_scalar (stv : String → Rat × Nat) (s : String) : LuaVal :=
  if s = "true" ∨ s = "True" ∨ s = "TRUE" then .boolean true
  else if s = "false" ∨ s = "False" ∨ s = "FALSE" then .boolean false
  else
    match parse_number stv s with
    | some q => .num q
    | none => .str s

def LuaVal.isBoolB : LuaVal → Bool
  | .boolean _ => true
  | _ => false

/-- Claim C8 (amended): a decoded YAML scalar is a boolean exactly for the six
listed spellings (with the stated values); otherwise it is a Number iff
`parse_number` accepts, the text passing through as a String otherwise; and
`parse_number` accepts iff `strtod` consumed a nonempty prefix and stopped on
a NUL byte — which for NUL-free scalar text (and a parser not overrunning the
buffer) is exactly full consumption. -/
theorem c8_yaml_scalar_decode (stv : String → Rat × Nat) (s : String) :
    ((push_yaml_scalar stv s).isBoolB = true ↔
      s = "true" ∨ s = "True" ∨ s = "TRUE" ∨ s = "false" ∨ s = "False" ∨ s = "FALSE") ∧
    (s = "true" ∨ s = "True" ∨ s = "TRUE" → push_yaml_scalar stv s = .boolean true) ∧
    (s = "false" ∨ s = "False" ∨ s = "FALSE" → push_yaml_scalar stv s = .boolean false) ∧
    (¬(s = "true" ∨ s = "True" ∨ s = "TRUE" ∨ s = "false" ∨ s = "False" ∨ s = "FALSE") →
      ∀ q, parse_number stv s = some q → push_yaml_scalar stv s = .num q) ∧
    (¬(s = "true" ∨ s = "True" ∨ s = "TRUE" ∨ s = "false" ∨ s = "False" ∨ s = "FALSE") →
      parse_number stv s = none → push_yaml_scalar stv s = .str s) ∧
    (parse_number stv s = some (stv s).1 ↔
      s.data.getD (stv s).2 '\x00' = '\x00' ∧ (stv s).2 ≠ 0) ∧
    (noNulB s = true → (stv s).2 ≤ s.length →
      (parse_number stv s = some (stv s).1 ↔ ((stv s).2 = s.length ∧ (stv s).2 ≠ 0))) := by
  have hiff : parse_number stv s = some (stv s).1 ↔
      (s.data.getD (stv s).2 '\x00' = '\x00' ∧ (stv s).2 ≠ 0) := by
    unfold parse_number
    by_cases hc : s.data.getD (stv s).2 '\x00' = '\x00' ∧ (stv s).2 ≠ 0
    · simp [hc]
    · rw [if_neg hc]
      constructor
      · intro h
        exact Option.noConfusion h
      · intro h
        exact (hc h).elim
  have hnul : noNulB s = true → (stv s).2 ≤ s.length →
      (parse_number stv s = some (stv s).1 ↔ ((stv s).2 = s.length ∧ (stv s).2 ≠ 0)) := by
    intro hnn hle
    rw [hiff]
    constructor
    · rintro ⟨hz, hne⟩
      refine ⟨?_, hne⟩
      by_contra hnea
      have hlt : (stv s).2 < s.data.length := lt_of_le_of_ne hle hnea
      have hmem : s.data.getD (stv s).2 '\x00' ∈ s.data :=
        getD_mem_of_lt s.data '\x00' (stv s).2 hlt
      have hc := (List.all_eq_true.mp hnn) _ hmem
      rw [hz] at hc
      simp at hc
    · rintro ⟨heq, hne⟩
      refine ⟨?_, hne⟩
      rw [heq]
      exact List.getD_eq_default _ _ (le_refl _)
  unfold push_yaml_scalar
  by_cases ht : s = "true" ∨ s = "True" ∨ s = "TRUE"
  · rw [if_pos ht]
    have hf : ¬(s = "false" ∨ s = "False" ∨ s = "FALSE") := by
      rcases ht with rfl | rfl | rfl <;> simp
    have hsixt : s = "true" ∨ s = "True" ∨ s = "TRUE" ∨ s = "false" ∨ s = "False" ∨
        s = "FALSE" := Or.imp id (Or.imp id Or.inl) ht
    exact ⟨Iff.intro (fun _ => hsixt) (fun _ => rfl), fun _ => rfl, fun h => absurd h hf,
      fun h => absurd hsixt h, fun h => absurd hsixt h, hiff, hnul⟩
  · rw [if_neg ht]
    by_cases hf : s = "false" ∨ s = "False" ∨ s = "FALSE"
    · rw [if_pos hf]
      have hsixf : s = "true" ∨ s = "True" ∨ s = "TRUE" ∨ s = "false" ∨ s = "False" ∨
          s = "FALSE" := Or.inr (Or.inr (Or.inr hf))
      exact ⟨Iff.intro (fun _ => hsixf) (fun _ => rfl), fun h => absurd h ht, fun _ => rfl,
        fun h => absurd hsixf h, fun h => absurd hsixf h, hiff, hnul⟩
    · rw [if_neg hf]
      have hsix : ¬(s = "true" ∨ s = "True" ∨ s = "TRUE" ∨ s = "false" ∨ s = "False" ∨
          s = "FALSE") := fun h =>
        h.elim (fun h1 => ht (Or.inl h1)) (fun h2 =>
          h2.elim (fun h1 => ht (Or.inr (Or.inl h1))) (fun h3 =>
            h3.elim (fun h1 => ht (Or.inr (Or.inr h1))) hf))
      refine ⟨?_, fun h => absurd h ht, fun h => absurd h hf,
        fun _ q hq => by rw [hq], fun _ hq => by rw [hq], hiff, hnul⟩
      constructor
      · intro hb
        exfalso
        cases hpn : parse_number stv s with
        | some q => rw [hpn] at hb; simp [LuaVal.isBoolB] at hb
        | none => rw [hpn] at hb; simp [LuaVal.isBoolB] at hb
      · intro h
        exact absurd h hsix

/-- Witness for `c8_yaml_scalar_decode`: a concrete parser model and scalar
(full parse of `"42"` to the rational 42) discharging the implications. -/
theorem c8_yaml_scalar_decode_witness :
    push_yaml_scalar (fun s => (ratInt 42, s.length)) ("42") = .num (ratInt 42) ∧
      push_yaml_scalar (fun _ => (ratInt 0, 0)) ("hello") = .str ("hello") ∧
      push_yaml_scalar (fun s => (ratInt 0, s.length)) ("True") = .boolean true := by
  refine ⟨?_, ?_, ?_⟩
  · exact (c8_yaml_scalar_decode (fun s => (ratInt 42, s.length)) ("42")).2.2.2.1
      (by decide) (ratInt 42) (by rw [parse_number, if_pos (by decide)])
  · exact (c8_yaml_scalar_decode (fun _ => (ratInt 0, 0)) ("hello")).2.2.2.2.1
      (by decide) (by rw [parse_number, if_neg (by decide)])
  · exact (c8_yaml_scalar_decode (fun s => (ratInt 0, s.length)) ("True")).2.1
      (by decide)

/-- Modelled from the spec and the C library contract of `strtod`, as far as
the claims exercise it: consume the maximal leading run of decimal digits and
return its value and length (signs, fractions and exponents are not needed by
any claim). -/
def strtodModel (s : String) : Rat × Nat :=
  (ratInt ((s.data.takeWhile (fun c => c.isDigit)).foldl
      (fun a c => a * 10 + ((c.toNat : Int) - 48)) 0),
    (s.data.takeWhile (fun c => c.isDigit)).length)

/-- Claim C8 counterexample: on the scalar `"42\x00x"` (an embedded NUL,
expressible in YAML via an escape) `strtod` consumes `"42"` and stops at the
embedded NUL, so `*end == '\0'` holds and `parse_number` accepts a **partial**
parse: the scalar decodes as the Number 42 although the numeric parse did not
consume the entire text, where the claim requires the String. -/
theorem c8_counterexample :
    push_yaml_scalar strtodModel ("42\x00x") = .num (ratInt 42) ∧
    (strtodModel ("42\x00x")).2 ≠ ("42\x00x" : String).length ∧
    push_yaml_scalar strtodModel ("42\x00x") ≠ .str ("42\x00x") := by
  refine ⟨rfl, by decide, ?_⟩
  intro h
  have h2 : LuaVal.num (ratInt 42) = .str ("42\x00x") := h
  exact LuaVal.noConfusion h2

/-! ## Claim C4: empty-input handling of the four deserializers -/

inductive DErr where
  | emptyInput
  | parseErr (msg : String)
  | noRoot
deriving DecidableEq

/-- `jsondeserialize` (`ljsonlib.cpp:262`): zero-length input is rejected
before the external parser (a parameter here) sees the text. -/
def jsondeserialize {α} (parse : String → Except DErr α) (s : String) : Except DErr α :=
  if s.length = 0 then .error .emptyInput else parse s

/-- `yamldeserialize` (`lyamllib.cpp:236`): same zero-length guard. -/
def yamldeserialize {α} (parse : String → Except DErr α) (s : String) : Except DErr α :=
  if s.length = 0 then .error .emptyInput else parse s

/-- `xmldeserialize` (`lxmllib.cpp:65`): same zero-length guard. -/
def xmldeserialize {α} (parse : String → Except DErr α) (s : String) : Except DErr α :=
  if s.length = 0 then .error .emptyInput else parse s

/-- `tomldeserialize` (`src/unnamed/part_000:56`–`74`): **no** zero-length
guard — the input goes straight to `toml::parse`. -/
def tomldeserialize {α} (parse : String → Except DErr α) (s : String) : Except DErr α :=
  parse s

/-- Modelled from the spec: the external TOML parser (`toml::parse`).  Per the
TOML format an empty (or whitespace-only) document is valid and denotes the
empty table; other inputs are outside what the claims exercise and are
conservatively modelled as parse errors. -/
def toml_parse (s : String) : Except DErr Tbl :=
  if s.data.all (fun c => c = ' ' ∨ c = '\n' ∨ c = '\t' ∨ c = '\r') then .ok []
  else .error (.parseErr s)

/-- Claim C4 (amended): zero-length input fails with the empty-input error in
JSON, YAML and XML, whatever the external parser does; the TOML deserializer
has no such guard and `toml::parse` accepts the empty document, returning the
empty table. -/
theorem c4_empty_input :
    (∀ (α : Type) (parse : String → Except DErr α),
      jsondeserialize parse ("") = .error .emptyInput) ∧
    (∀ (α : Type) (parse : String → Except DErr α),
      yamldeserialize parse ("") = .error .emptyInput) ∧
    (∀ (α : Type) (parse : String → Except DErr α),
      xmldeserialize parse ("") = .error .emptyInput) ∧
    tomldeserialize toml_parse ("") = .ok ([] : Tbl) :=
  ⟨fun _ _ => rfl, fun _ _ => rfl, fun _ _ => rfl, rfl⟩

/-- Claim C4, counterexample: TOML `deserialize("")` succeeds with the empty
table — it does not fail with the empty-input error (nor any other error). -/
theorem c4_counterexample :
    tomldeserialize toml_parse ("") = .ok ([] : Tbl) ∧
      ∀ e : DErr, tomldeserialize toml_parse ("") ≠ .error e :=
  ⟨rfl, fun _ h => Except.noConfusion h⟩

/-! ## Claim C1: JSON round trip

`jsonserialize` encodes the table into a `nlohmann::json` tree and dumps it;
`jsondeserialize` lets the library parse the text, replaying it as SAX events
into `lua_sax` (`ljsonlib.cpp:11`–`129`), a stack machine over the Lua stack.
The external dump/parse pair is modelled by its contract: parsing the dump of
a tree replays the canonical event stream of that tree (`jsonEvents`).  The
repository-owned part — the `lua_sax` machine — is embedded step by step. -/

/-- SAX callbacks of `nlohmann::json_sax` as implemented by `lua_sax`. -/
inductive Ev where
  | startObj
  | endObj
  | startArr
  | endArr
  | key (k : String)
  | evNull
  | evBool (b : Bool)
  | evNum (q : Rat)
  | evStr (s : String)

mutual

/-- The canonical SAX event stream of a JSON tree — what the external parser
emits when fed the tree's dump. -/
def jsonEvents : Json → List Ev
  | .null => [.evNull]
  | .jb b => [.evBool b]
  | .jn q => [.evNum q]
  | .js s => [.evStr s]
  | .jarr xs => .startArr :: (jsonEventsL xs ++ [.endArr])
  | .jobj kvs => .startObj :: (jsonEventsO kvs ++ [.endObj])

def jsonEventsL : List Json → List Ev
  | [] => []
  | x :: xs => jsonEvents x ++ jsonEventsL xs

def jsonEventsO : List (String × Json) → List Ev
  | [] => []
  | (k, v) :: kvs => .key k :: (jsonEvents v ++ jsonEventsO kvs)

end

/-- `lua_rawset` key update: first pair with the key replaced in place,
otherwise a new pair appended. -/
def tput : Tbl → LKey → LuaVal → Tbl
  | [], k, v => [(k, v)]
  | (k', v') :: rest, k, v =>
    if k' = k then (k, v) :: rest else (k', v') :: tput rest k v

/-- Removing a key (what assigning nil does in Lua). -/
def tdel : Tbl → LKey → Tbl
  | [], _ => []
  | (k', v') :: rest, k => if k' = k then rest else (k', v') :: tdel rest k

/-- `lua_rawseti`/`lua_settable`: assigning nil removes the key. -/
def tset (t : Tbl) (k : LKey) (v : LuaVal) : Tbl :=
  if v.isNilV then tdel t k else tput t k v

structure SaxFrame where
  isArray : Bool
  index : Nat

/-- The machine state of `lua_sax`: the Lua value stack (tables under
construction, pending keys, finished root) and the frame stack. -/
structure SaxState where
  vstack : List LuaVal
  frames : List SaxFrame

def keyOfVal : LuaVal → LKey
  | .str s => .str s
  | .num q => .num q
  | _ => .str ("")

/-- `lua_sax::insert_value` (`ljsonlib.cpp:25`): with no open container the
root value stays on the stack; in an array frame the value is stored at the
incremented index (`lua_rawseti`); in an object frame `lua_settable` consumes
the pending key below the value. -/
def insert_value (s : SaxState) : SaxState :=
  match s.frames with
  | [] => s
  | f :: fs =>
    if f.isArray then
      match s.vstack with
      | v :: .table c :: rest =>
        { vstack := .table (tset c (.num (ratInt ((f.index + 1 : Nat) : Int))) v) :: rest,
          frames := { isArray := true, index := f.index + 1 } :: fs }
      | _ => s
    else
      match s.vstack with
      | v :: k :: .table c :: rest =>
        { vstack := .table (tset c (keyOfVal k) v) :: rest, frames := f :: fs }
      | _ => s

/-- One SAX callback (`ljsonlib.cpp:42`–`116`): containers push a fresh table
and a frame; `end_*` pops the frame and inserts the finished table; keys are
pushed; scalars are pushed and inserted. -/
def saxStep (s : SaxState) : Ev → SaxState
  | .startObj => { vstack := .table [] :: s.vstack, frames := ⟨false, 0⟩ :: s.frames }
  | .startArr => { vstack := .table [] :: s.vstack, frames := ⟨true, 0⟩ :: s.frames }
  | .endObj => insert_value { vstack := s.vstack, frames := s.frames.tail }
  | .endArr => insert_value { vstack := s.vstack, frames := s.frames.tail }
  | .key k => { vstack := .str k :: s.vstack, frames := s.frames }
  | .evNull => insert_value { vstack := .nil :: s.vstack, frames := s.frames }
  | .evBool b => insert_value { vstack := .boolean b :: s.vstack, frames := s.frames }
  | .evNum q => insert_value { vstack := .num q :: s.vstack, frames := s.frames }
  | .evStr str => insert_value { vstack := .str str :: s.vstack, frames := s.frames }

def saxRun (s : SaxState) (evs : List Ev) : SaxState := evs.foldl saxStep s

/-- The value `jsondeserialize` returns after the machine consumed a parse's
events: the root left on the Lua stack. -/
def saxDecode (evs : List Ev) : LuaVal :=
  (saxRun ⟨[], []⟩ evs).vstack.headD .nil

mutual

/-- The recursive description of the machine's effect on one tree: arrays are
built by successive `lua_rawseti 1..n`, objects by successive `lua_settable`.
Proved equal to running the machine (`saxRun_events` below). -/
def jsonDecode : Json → LuaVal
  | .null => .nil
  | .jb b => .boolean b
  | .jn q => .num q
  | .js s => .str s
  | .jarr xs => .table (jsonDecodeArr [] 0 xs)
  | .jobj kvs => .table (jsonDecodeObj [] kvs)

def jsonDecodeArr (acc : Tbl) (idx : Nat) : List Json → Tbl
  | [] => acc
  | x :: xs =>
    jsonDecodeArr (tset acc (.num (ratInt ((idx+1 : Nat) : Int))) (jsonDecode x)) (idx+1) xs

def jsonDecodeObj (acc : Tbl) : List (String × Json) → Tbl
  | [] => acc
  | (k, v) :: kvs => jsonDecodeObj (tset acc (.str k) (jsonDecode v)) kvs

end

def pushIns (s : SaxState) (v : LuaVal) : SaxState :=
  insert_value { vstack := v :: s.vstack, frames := s.frames }

mutual

/-- Running the machine over one tree's events pushes and inserts the tree's
decoded value. -/
theorem saxRun_events : ∀ (j : Json) (s : SaxState) (rest : List Ev),
    saxRun s (jsonEvents j ++ rest) = saxRun (pushIns s (jsonDecode j)) rest
  | .null, _, _ => rfl
  | .jb _, _, _ => rfl
  | .jn _, _, _ => rfl
  | .js _, _, _ => rfl
  | .jarr xs, s, rest => by
    show saxRun s ((Ev.startArr :: (jsonEventsL xs ++ [Ev.endArr])) ++ rest) = _
    rw [List.cons_append, List.append_assoc]
    show saxRun (⟨.table [] :: s.vstack, ⟨true, 0⟩ :: s.frames⟩ : SaxState)
        (jsonEventsL xs ++ ([Ev.endArr] ++ rest)) = _
    rw [saxRunL xs [] s.vstack s.frames 0 ([Ev.endArr] ++ rest)]
    rfl
  | .jobj kvs, s, rest => by
    show saxRun s ((Ev.startObj :: (jsonEventsO kvs ++ [Ev.endObj])) ++ rest) = _
    rw [List.cons_append, List.append_assoc]
    show saxRun (⟨.table [] :: s.vstack, ⟨false, 0⟩ :: s.frames⟩ : SaxState)
        (jsonEventsO kvs ++ ([Ev.endObj] ++ rest)) = _
    rw [saxRunO kvs [] s.vstack s.frames 0 ([Ev.endObj] ++ rest)]
    rfl

/-- Array elements are inserted one after the other into the open frame. -/
theorem saxRunL : ∀ (xs : List Json) (c : Tbl) (vrest : List LuaVal)
    (fs : List SaxFrame) (idx : Nat) (rest : List Ev),
    saxRun ⟨.table c :: vrest, ⟨true, idx⟩ :: fs⟩ (jsonEventsL xs ++ rest)
      = saxRun ⟨.table (jsonDecodeArr c idx xs) :: vrest,
          ⟨true, idx + xs.length⟩ :: fs⟩ rest
  | [], c, vrest, fs, idx, rest => by
    simp [jsonEventsL, jsonDecodeArr]
  | x :: xs, c, vrest, fs, idx, rest => by
    show saxRun _ ((jsonEvents x ++ jsonEventsL xs) ++ rest) = _
    rw [List.append_assoc]
    rw [saxRun_events x ⟨.table c :: vrest, ⟨true, idx⟩ :: fs⟩ (jsonEventsL xs ++ rest)]
    show saxRun (⟨.table (tset c (.num (ratInt ((idx+1 : Nat) : Int))) (jsonDecode x)) :: vrest,
        ⟨true, idx + 1⟩ :: fs⟩ : SaxState) (jsonEventsL xs ++ rest) = _
    rw [saxRunL xs _ vrest fs (idx+1) rest]
    have hlen : idx + 1 + xs.length = idx + (x :: xs).length := by
      simp [List.length_cons]
      omega
    rw [hlen]
    rfl

/-- Object entries are inserted one after the other into the open frame. -/
theorem saxRunO : ∀ (kvs : List (String × Json)) (c : Tbl) (vrest : List LuaVal)
    (fs : List SaxFrame) (idx : Nat) (rest : List Ev),
    saxRun ⟨.table c :: vrest, ⟨false, idx⟩ :: fs⟩ (jsonEventsO kvs ++ rest)
      = saxRun ⟨.table (jsonDecodeObj c kvs) :: vrest, ⟨false, idx⟩ :: fs⟩ rest
  | [], c, vrest, fs, idx, rest => by
    simp [jsonEventsO, jsonDecodeObj]
  | (k, v) :: kvs, c, vrest, fs, idx, rest => by
    show saxRun _ ((Ev.key k :: (jsonEvents v ++ jsonEventsO kvs)) ++ rest) = _
    rw [List.cons_append, List.append_assoc]
    show saxRun (⟨.str k :: .table c :: vrest, ⟨false, idx⟩ :: fs⟩ : SaxState)
        (jsonEvents v ++ (jsonEventsO kvs ++ rest)) = _
    rw [saxRun_events v ⟨.str k :: .table c :: vrest, ⟨false, idx⟩ :: fs⟩
      (jsonEventsO kvs ++ rest)]
    show saxRun (⟨.table (tset c (.str k) (jsonDecode v)) :: vrest,
        ⟨false, idx⟩ :: fs⟩ : SaxState) (jsonEventsO kvs ++ rest) = _
    rw [saxRunO kvs _ vrest fs idx rest]
    rfl

end

/-- The machine's decode of a tree's event stream is the recursive decode. -/
theorem saxDecode_events (j : Json) : saxDecode (jsonEvents j) = jsonDecode j := by
  unfold saxDecode
  have h := saxRun_events j ⟨[], []⟩ []
  rw [List.append_nil] at h
  rw [h]
  rfl

/-- The value domain of the round-trip claim: values built only from
booleans, numbers, strings, Sequences and Mappings with string keys.  (A nil
inside a Lua table is indistinguishable from absence, so nil can only occur
as the top-level value, which `serialize` rejects — the domain has no nil
constructor.) -/
inductive JVal where
  | jvB (b : Bool)
  | jvN (q : Rat)
  | jvS (s : String)
  | jvSeq (xs : List JVal)
  | jvMap (kvs : List (String × JVal))

mutual

/-- The Lua table a `JVal` denotes: a Sequence holds its elements at integer
keys `1..n`, a Mapping holds its entries at string keys. -/
def jvToLua : JVal → LuaVal
  | .jvB b => .boolean b
  | .jvN q => .num q
  | .jvS s => .str s
  | .jvSeq xs => .table (jvSeqTbl 1 xs)
  | .jvMap kvs => .table (jvMapTbl kvs)

def jvSeqTbl : Nat → List JVal → Tbl
  | _, [] => []
  | i, x :: xs => (.num (ratInt i), jvToLua x) :: jvSeqTbl (i+1) xs

def jvMapTbl : List (String × JVal) → Tbl
  | [] => []
  | (k, v) :: kvs => (.str k, jvToLua v) :: jvMapTbl kvs

end

/-- Sequence-shaped entry list under an arbitrary value map. -/
def seqEntries {α} (g : JVal → α) : Nat → List JVal → List (LKey × α)
  | _, [] => []
  | i, x :: xs => (.num (ratInt i), g x) :: seqEntries g (i+1) xs

/-- Mapping-shaped entry list under an arbitrary value map. -/
def mapEntries {α} (g : JVal → α) : List (String × JVal) → List (LKey × α)
  | [] => []
  | (k, v) :: kvs => (.str k, g v) :: mapEntries g kvs

def nodupB {α} [DecidableEq α] : List α → Bool
  | [] => true
  | x :: xs => !(decide (x ∈ xs)) && nodupB xs

mutual

/-- Well-formedness for the round trip: mapping keys pairwise distinct, no
string (key or value) contains a NUL byte. -/
def jvWF : JVal → Bool
  | .jvB _ => true
  | .jvN _ => true
  | .jvS s => noNulB s
  | .jvSeq xs => jvWFL xs
  | .jvMap kvs => nodupB (kvs.map Prod.fst) && jvWFM kvs

def jvWFL : List JVal → Bool
  | [] => true
  | x :: xs => jvWF x && jvWFL xs

def jvWFM : List (String × JVal) → Bool
  | [] => true
  | (k, v) :: kvs => noNulB k && jvWF v && jvWFM kvs

end

theorem cstr_noNul {s : String} (h : noNulB s = true) : cstr s = s := by
  unfold cstr
  have : s.data.takeWhile (fun c => c ≠ '\x00') = s.data := by
    apply List.takeWhile_eq_self_iff.mpr
    intro c hc
    exact (List.all_eq_true.mp h) c hc
  rw [this]

theorem ratInt_inj {a b : Int} (h : ratInt a = ratInt b) : a = b := congrArg Rat.num h

theorem ratTrunc_ratInt (i : Int) : ratTrunc (ratInt i) = i := by
  simp [ratTrunc, ratInt, Int.tdiv_one]

theorem jvToLua_ne_nil (x : JVal) : (jvToLua x).isNilV = false := by
  cases x <;> rfl

theorem jvSeqTbl_eq (xs : List JVal) : ∀ i, jvSeqTbl i xs = seqEntries jvToLua i xs := by
  induction xs with
  | nil => intro i; rfl
  | cons x xs ih => intro i; rw [jvSeqTbl, seqEntries, ih]

theorem jvMapTbl_eq (kvs : List (String × JVal)) :
    jvMapTbl kvs = mapEntries jvToLua kvs := by
  induction kvs with
  | nil => rfl
  | cons kv kvs ih => rcases kv with ⟨k, v⟩; rw [jvMapTbl, mapEntries, ih]

theorem jsonEntries_seq (xs : List JVal) : ∀ i,
    jsonEntries (seqEntries jvToLua i xs)
      = seqEntries (fun x => encode_value (jvToLua x)) i xs := by
  induction xs with
  | nil => intro i; rfl
  | cons x xs ih => intro i; rw [seqEntries, jsonEntries, seqEntries, ih]

theorem jsonEntries_map (kvs : List (String × JVal)) :
    jsonEntries (mapEntries jvToLua kvs)
      = mapEntries (fun v => encode_value (jvToLua v)) kvs := by
  induction kvs with
  | nil => rfl
  | cons kv kvs ih => rcases kv with ⟨k, v⟩; rw [mapEntries, jsonEntries, mapEntries, ih]

theorem tget_seqEntries {α} (g : JVal → α) (xs : List JVal) : ∀ (i d : Nat),
    tget (seqEntries g i xs) (.num (ratInt (i + d : Nat))) = (xs.map g).get? d := by
  induction xs with
  | nil => intro i d; rfl
  | cons x xs ih =>
    intro i d
    rw [seqEntries, tget]
    match d with
    | 0 =>
      rw [if_pos (by simp)]
      rfl
    | d + 1 =>
      rw [if_neg ?_]
      · have : (i : Nat) + (d + 1) = (i + 1) + d := by omega
        rw [this, ih (i+1) d]
        rfl
      · intro hk
        have h1 := ratInt_inj (by injection hk)
        omega

theorem seqEntries_keys_num {α} (g : JVal → α) (xs : List JVal) : ∀ i,
    ∀ kv ∈ seqEntries g i xs, ∃ j : Nat, i ≤ j ∧ j < i + xs.length ∧
      kv.1 = .num (ratInt (j : Nat)) := by
  induction xs with
  | nil => intro i kv h; exact absurd h (by simp [seqEntries])
  | cons x xs ih =>
    intro i kv h
    rw [seqEntries] at h
    rcases List.mem_cons.mp h with rfl | h2
    · exact ⟨i, le_refl i, by simp, rfl⟩
    · rcases ih (i+1) kv h2 with ⟨j, hj1, hj2, hj3⟩
      refine ⟨j, by omega, ?_, hj3⟩
      simp only [List.length_cons]
      omega

theorem mapEntries_keys_str {α} (g : JVal → α) (kvs : List (String × JVal)) :
    ∀ kv ∈ mapEntries g kvs, keyIsNumB kv.1 = false := by
  induction kvs with
  | nil => intro kv h; exact absurd h (by simp [mapEntries])
  | cons p kvs ih =>
    intro kv h
    rcases p with ⟨k, v⟩
    rw [mapEntries] at h
    rcases List.mem_cons.mp h with rfl | h2
    · rfl
    · exact ih kv h2

theorem seqEntries_length {α} (g : JVal → α) (xs : List JVal) : ∀ i,
    (seqEntries g i xs).length = xs.length := by
  induction xs with
  | nil => intro i; rfl
  | cons x xs ih => intro i; rw [seqEntries, List.length_cons, List.length_cons, ih]

theorem presentNN_seq (xs : List JVal) (j : Nat) :
    presentNN LuaVal.isNilV (seqEntries jvToLua 1 xs) (j+1) = decide (j < xs.length) := by
  unfold presentNN
  have h1 : j + 1 = 1 + j := by omega
  rw [h1, tget_seqEntries jvToLua xs 1 j]
  cases hx : xs.get? j with
  | some x =>
    have hlt : j < xs.length := by
      by_contra hge
      rw [List.get?_eq_none.mpr (by omega)] at hx
      exact Option.noConfusion hx
    rw [List.get?_map, hx]
    simp [jvToLua_ne_nil, hlt]
  | none =>
    have hge : xs.length ≤ j := by
      by_contra hlt
      rcases List.get?_eq_get (by omega : j < xs.length) with h2
      rw [h2] at hx
      exact Option.noConfusion hx
    rw [List.get?_map, hx]
    simp
    omega

theorem denseFrom_exact {α} (isNil : α → Bool) (t : List (LKey × α)) :
    ∀ (fuel n m : Nat), n ≤ m → m ≤ n + fuel →
      (∀ j, n ≤ j → j < m → presentNN isNil t (j+1) = true) →
      presentNN isNil t (m+1) = false →
      denseFrom isNil t n fuel = m := by
  intro fuel
  induction fuel with
  | zero => intro n m h1 h2 _ _; simp only [denseFrom]; omega
  | succ fuel ih =>
    intro n m h1 h2 hpres hstop
    rcases Nat.eq_or_lt_of_le h1 with rfl | hlt
    · rw [denseFrom, if_neg (by rw [hstop]; exact Bool.false_ne_true)]
    · rw [denseFrom, if_pos (hpres n (le_refl n) hlt)]
      exact ih (n+1) m hlt (by omega) (fun j hj1 hj2 => hpres j (by omega) hj2) hstop

theorem objlen_seq (xs : List JVal) :
    lua_objlen LuaVal.isNilV (seqEntries jvToLua 1 xs) = xs.length := by
  unfold lua_objlen
  rw [seqEntries_length]
  exact denseFrom_exact LuaVal.isNilV _ xs.length 0 xs.length (Nat.zero_le _)
    (by omega)
    (fun j _ hj => by rw [presentNN_seq]; simpa using hj)
    (by rw [presentNN_seq]; simp)

theorem objlen_map (kvs : List (String × JVal)) :
    lua_objlen LuaVal.isNilV (mapEntries jvToLua kvs) = 0 :=
  objlen_zero_of_all_str _ _ (mapEntries_keys_str jvToLua kvs)

theorem seq_keycheck (xs : List JVal) (i L : Nat) (hi : 1 ≤ i)
    (hL : i + xs.length ≤ L + 1) :
    ((seqEntries jvToLua i xs).all fun kv =>
      match kv.1 with
      | .num q => decide (1 ≤ ratTrunc q) && decide (ratTrunc q ≤ (L : Int))
      | .str _ => false) = true := by
  rw [List.all_eq_true]
  intro kv hkv
  rcases seqEntries_keys_num jvToLua xs i kv hkv with ⟨j, hj1, hj2, hj3⟩
  rw [hj3]
  simp only [ratTrunc_ratInt, Bool.and_eq_true, decide_eq_true_eq]
  constructor
  · have : 1 ≤ j := le_trans hi hj1
    exact_mod_cast this
  · have : j ≤ L := by omega
    exact_mod_cast this

theorem jsonIsArray_seq (xs : List JVal) (h : xs ≠ []) :
    jsonIsArray (seqEntries jvToLua 1 xs) = true := by
  unfold jsonIsArray jsonIsArrayG
  rw [range_all_present, Bool.true_and, if_neg ?_]
  · rw [objlen_seq]
    exact seq_keycheck xs 1 xs.length (le_refl 1) (by omega)
  · rw [objlen_seq]
    have : xs.length ≠ 0 := by
      intro h0
      exact h (List.eq_nil_of_length_eq_zero h0)
    simp [this]

theorem jsonIsArray_map (kvs : List (String × JVal)) (h : kvs ≠ []) :
    jsonIsArray (mapEntries jvToLua kvs) = false := by
  rcases kvs with _ | ⟨⟨k, v⟩, kvs⟩
  · exact absurd rfl h
  · show jsonIsArrayG LuaVal.isNilV ((LKey.str k, jvToLua v) :: mapEntries jvToLua kvs)
      = false
    unfold jsonIsArrayG
    rw [if_neg ?_]
    · rw [List.all_cons]
      simp
    · simp

theorem tget_none_iff {α} (t : List (LKey × α)) (k : LKey) :
    tget t k = none ↔ ∀ p ∈ t, p.1 ≠ k := by
  induction t with
  | nil => simp [tget]
  | cons p rest ih =>
    rcases p with ⟨k', v'⟩
    rw [tget]
    by_cases hk : k' = k
    · simp [hk]
    · simp only [if_neg hk, ih, List.mem_cons]
      constructor
      · intro hall p hp
        rcases hp with rfl | hp
        · exact hk
        · exact hall p hp
      · intro hall p hp
        exact hall p (Or.inr hp)

theorem tget_append_left_none {α} (a b : List (LKey × α)) (k : LKey)
    (h : tget a k = none) : tget (a ++ b) k = tget b k := by
  induction a with
  | nil => rfl
  | cons p rest ih =>
    rcases p with ⟨k', v'⟩
    rw [tget] at h
    by_cases hk : k' = k
    · rw [if_pos hk] at h
      exact Option.noConfusion h
    · rw [if_neg hk] at h
      rw [List.cons_append, tget, if_neg hk]
      exact ih h

theorem tput_append (t : Tbl) (k : LKey) (v : LuaVal) (h : tget t k = none) :
    tput t k v = t ++ [(k, v)] := by
  induction t with
  | nil => rfl
  | cons p rest ih =>
    rcases p with ⟨k', v'⟩
    rw [tget] at h
    by_cases hk : k' = k
    · rw [if_pos hk] at h
      exact Option.noConfusion h
    · rw [if_neg hk] at h
      rw [tput, if_neg hk, List.cons_append, ih h]

theorem assocUpd_append {β} (acc : List (String × β)) (k : String) (v : β)
    (h : ∀ p ∈ acc, p.1 ≠ k) : assocUpd acc k v = acc ++ [(k, v)] := by
  induction acc with
  | nil => rfl
  | cons p rest ih =>
    rcases p with ⟨k', v'⟩
    have hk : k' ≠ k := h (k', v') (List.mem_cons_self _ _)
    rw [assocUpd, if_neg hk, List.cons_append,
      ih fun p hp => h p (List.mem_cons_of_mem _ hp)]

theorem nodupB_head_not_mem {α} [DecidableEq α] {x : α} {xs : List α}
    (h : nodupB (x :: xs) = true) : x ∉ xs ∧ nodupB xs = true := by
  rw [nodupB, Bool.and_eq_true, Bool.not_eq_true'] at h
  exact ⟨by simpa using h.1, h.2⟩

theorem objOf_fold_fresh (g : JVal → Json) (kvs : List (String × JVal)) :
    ∀ (acc : List (String × Json)),
      (∀ kv ∈ kvs, noNulB kv.1 = true) →
      nodupB (kvs.map Prod.fst) = true →
      (∀ kv ∈ kvs, ∀ p ∈ acc, p.1 ≠ kv.1) →
      (mapEntries g kvs).foldl (fun a kv => assocUpd a (luaKeyStr kv.1) kv.2) acc
        = acc ++ kvs.map (fun kv => (kv.1, g kv.2)) := by
  induction kvs with
  | nil => intro acc _ _ _; simp [mapEntries]
  | cons p kvs ih =>
    rcases p with ⟨k, v⟩
    intro acc hnul hnd hacc
    have hk : noNulB k = true := hnul (k, v) (List.mem_cons_self _ _)
    have hnd2 := nodupB_head_not_mem (by simpa using hnd)
    rw [mapEntries, List.foldl_cons]
    have hstep : assocUpd acc (luaKeyStr (LKey.str k)) (g v) = acc ++ [(k, g v)] := by
      show assocUpd acc (cstr k) (g v) = acc ++ [(k, g v)]
      rw [cstr_noNul hk]
      exact assocUpd_append acc k (g v) fun p hp => hacc (k, v) (List.mem_cons_self _ _) p hp
    rw [hstep, ih (acc ++ [(k, g v)])
      (fun kv hkv => hnul kv (List.mem_cons_of_mem _ hkv)) hnd2.2 ?_]
    · simp
    · intro kv hkv p hp
      rcases List.mem_append.mp hp with hp | hp
      · exact hacc kv (List.mem_cons_of_mem _ hkv) p hp
      · rcases List.mem_singleton.mp hp with rfl
        intro hkk
        have hk2 : k = kv.1 := hkk
        exact hnd2.1 (by rw [hk2]; exact List.mem_map_of_mem Prod.fst hkv)

theorem jsonObjOf_map (kvs : List (String × JVal))
    (hnul : ∀ kv ∈ kvs, noNulB kv.1 = true)
    (hnd : nodupB (kvs.map Prod.fst) = true) :
    jsonObjOf (mapEntries (fun v => encode_value (jvToLua v)) kvs)
      = kvs.map (fun kv => (kv.1, encode_value (jvToLua kv.2))) := by
  unfold jsonObjOf
  have := objOf_fold_fresh (fun v => encode_value (jvToLua v)) kvs [] hnul hnd
    (fun _ _ _ hp => absurd hp (by simp))
  simpa using this

theorem range_map_getD {β} (l : List β) (dflt : β) :
    (List.range l.length).map (fun i => (l.get? i).getD dflt) = l := by
  induction l with
  | nil => rfl
  | cons x l ih =>
    rw [List.length_cons, List.range_succ_eq_map, List.map_cons, List.map_map]
    have h1 : ((fun i => (((x :: l).get? i).getD dflt)) ∘ Nat.succ)
        = fun i => ((l.get? i).getD dflt) := by
      funext i
      rfl
    rw [h1, ih]
    rfl

theorem jsonArrOf_seq (xs : List JVal) :
    jsonArrOf (jsonEntries (seqEntries jvToLua 1 xs)) xs.length
      = xs.map (fun x => encode_value (jvToLua x)) := by
  rw [jsonEntries_seq]
  unfold jsonArrOf
  have h1 : ∀ i ∈ List.range xs.length,
      (tget (seqEntries (fun x => encode_value (jvToLua x)) 1 xs)
        (.num (ratInt ((i+1 : Nat) : Int)))).getD Json.null
        = ((xs.map (fun x => encode_value (jvToLua x))).get? i).getD Json.null := by
    intro i _
    have h2 : (i + 1 : Nat) = 1 + i := by omega
    rw [h2, tget_seqEntries]
  rw [List.map_congr_left h1]
  have h3 : xs.length = (xs.map (fun x => encode_value (jvToLua x))).length := by
    rw [List.length_map]
  rw [h3, range_map_getD]

theorem jsonDecodeArr_mapfold (xs : List JVal) :
    ∀ (acc : Tbl) (idx : Nat),
      (∀ x ∈ xs, jsonDecode (encode_value (jvToLua x)) = jvToLua x) →
      (∀ j : Nat, idx < j → tget acc (.num (ratInt (j : Nat))) = none) →
      jsonDecodeArr acc idx (xs.map (fun x => encode_value (jvToLua x)))
        = acc ++ seqEntries jvToLua (idx+1) xs := by
  induction xs with
  | nil => intro acc idx _ _; simp [jsonDecodeArr, seqEntries]
  | cons x xs ih =>
    intro acc idx hIH hacc
    rw [List.map_cons, jsonDecodeArr, hIH x (List.mem_cons_self _ _)]
    have hset : tset acc (.num (ratInt ((idx+1 : Nat) : Int))) (jvToLua x)
        = acc ++ [(.num (ratInt ((idx+1 : Nat) : Int)), jvToLua x)] := by
      unfold tset
      rw [jvToLua_ne_nil]
      show tput acc _ _ = _
      exact tput_append acc _ _ (hacc (idx+1) (by omega))
    rw [hset, ih _ (idx+1) (fun y hy => hIH y (List.mem_cons_of_mem _ hy)) ?_]
    · rw [seqEntries, List.append_assoc]
      rfl
    · intro j hj
      rw [tget_append_left_none _ _ _ (hacc j (by omega))]
      rw [tget, if_neg ?_]
      · rfl
      · intro hk
        have := ratInt_inj (by injection hk)
        omega

theorem jsonDecodeObj_mapfold (kvs : List (String × JVal)) :
    ∀ (acc : Tbl),
      (∀ kv ∈ kvs, jsonDecode (encode_value (jvToLua kv.2)) = jvToLua kv.2) →
      nodupB (kvs.map Prod.fst) = true →
      (∀ kv ∈ kvs, ∀ p ∈ acc, p.1 ≠ LKey.str kv.1) →
      jsonDecodeObj acc (kvs.map (fun kv => (kv.1, encode_value (jvToLua kv.2))))
        = acc ++ mapEntries jvToLua kvs := by
  induction kvs with
  | nil => intro acc _ _ _; simp [jsonDecodeObj, mapEntries]
  | cons p kvs ih =>
    rcases p with ⟨k, v⟩
    intro acc hIH hnd hacc
    have hnd2 := nodupB_head_not_mem (by simpa using hnd)
    rw [List.map_cons, jsonDecodeObj, hIH (k, v) (List.mem_cons_self _ _)]
    have hset : tset acc (.str k) (jvToLua v) = acc ++ [(.str k, jvToLua v)] := by
      unfold tset
      rw [jvToLua_ne_nil]
      show tput acc _ _ = _
      refine tput_append acc _ _ ((tget_none_iff acc (.str k)).mpr ?_)
      exact fun p hp => hacc (k, v) (List.mem_cons_self _ _) p hp
    rw [hset, ih _ (fun kv hkv => hIH kv (List.mem_cons_of_mem _ hkv)) hnd2.2 ?_]
    · rw [mapEntries, List.append_assoc]
      rfl
    · intro kv hkv p hp
      rcases List.mem_append.mp hp with hp | hp
      · exact hacc kv (List.mem_cons_of_mem _ hkv) p hp
      · rcases List.mem_singleton.mp hp with rfl
        intro hkk
        have : k = kv.1 := by injection hkk
        exact hnd2.1 (by rw [this]; exact List.mem_map_of_mem Prod.fst hkv)

theorem jvWFM_nul (kvs : List (String × JVal)) (h : jvWFM kvs = true) :
    ∀ kv ∈ kvs, noNulB kv.1 = true := by
  induction kvs with
  | nil => intro kv hkv; exact absurd hkv (by simp)
  | cons p kvs ih =>
    rcases p with ⟨k, v⟩
    rw [jvWFM, Bool.and_eq_true, Bool.and_eq_true] at h
    intro kv hkv
    rcases List.mem_cons.mp hkv with rfl | hkv2
    · exact h.1.1
    · exact ih h.2 kv hkv2

mutual

/-- Decoding the JSON encoding of a well-formed domain value reproduces its
Lua table exactly (in the list model). -/
theorem jsonRT : ∀ (v : JVal), jvWF v = true →
    jsonDecode (encode_value (jvToLua v)) = jvToLua v
  | .jvB _, _ => rfl
  | .jvN _, _ => rfl
  | .jvS s, h => by
    show LuaVal.str (cstr s) = LuaVal.str s
    rw [cstr_noNul h]
  | .jvSeq xs, h => by
    rcases eq_or_ne xs [] with rfl | hne
    · rfl
    · have hIH : ∀ x ∈ xs, jsonDecode (encode_value (jvToLua x)) = jvToLua x :=
        jsonRTL xs h
      show jsonDecode (encode_value (.table (jvSeqTbl 1 xs))) = .table (jvSeqTbl 1 xs)
      rw [jvSeqTbl_eq]
      simp only [encode_value]
      rw [jsonIsArray_seq xs hne, if_pos rfl, objlen_seq, jsonArrOf_seq]
      simp only [jsonDecode]
      congr 1
      have hfold := jsonDecodeArr_mapfold xs [] 0 hIH (fun _ _ => rfl)
      simpa using hfold
  | .jvMap kvs, h => by
    rcases eq_or_ne kvs [] with rfl | hne
    · rfl
    · have hw : nodupB (kvs.map Prod.fst) = true ∧ jvWFM kvs = true := by
        have h2 : (nodupB (kvs.map Prod.fst) && jvWFM kvs) = true := h
        exact Bool.and_eq_true_iff.mp h2
      have hIH : ∀ kv ∈ kvs, jsonDecode (encode_value (jvToLua kv.2)) = jvToLua kv.2 :=
        jsonRTM kvs hw.2
      have hnul : ∀ kv ∈ kvs, noNulB kv.1 = true := jvWFM_nul kvs hw.2
      show jsonDecode (encode_value (.table (jvMapTbl kvs))) = .table (jvMapTbl kvs)
      rw [jvMapTbl_eq]
      simp only [encode_value]
      rw [jsonIsArray_map kvs hne]
      show jsonDecode (.jobj (jsonObjOf (jsonEntries (mapEntries jvToLua kvs))))
        = .table (mapEntries jvToLua kvs)
      rw [jsonEntries_map, jsonObjOf_map kvs hnul hw.1]
      simp only [jsonDecode]
      congr 1
      have hfold := jsonDecodeObj_mapfold kvs [] hIH hw.1
        (fun _ _ _ hp => absurd hp (by simp))
      simpa using hfold

theorem jsonRTL : ∀ (xs : List JVal), jvWFL xs = true →
    ∀ x ∈ xs, jsonDecode (encode_value (jvToLua x)) = jvToLua x
  | [], _ => by intro x hx; exact absurd hx (by simp)
  | x :: xs, h => by
    have h2 : jvWF x = true ∧ jvWFL xs = true := by
      have h3 : (jvWF x && jvWFL xs) = true := h
      exact Bool.and_eq_true_iff.mp h3
    intro y hy
    rcases List.mem_cons.mp hy with rfl | hy2
    · exact jsonRT y h2.1
    · exact jsonRTL xs h2.2 y hy2

theorem jsonRTM : ∀ (kvs : List (String × JVal)), jvWFM kvs = true →
    ∀ kv ∈ kvs, jsonDecode (encode_value (jvToLua kv.2)) = jvToLua kv.2
  | [], _ => by intro kv hkv; exact absurd hkv (by simp)
  | (k, v) :: kvs, h => by
    have h2 : (noNulB k && jvWF v && jvWFM kvs) = true := h
    rw [Bool.and_eq_true_iff, Bool.and_eq_true_iff] at h2
    intro kv hkv
    rcases List.mem_cons.mp hkv with rfl | hkv2
    · exact jsonRT v h2.1.2
    · exact jsonRTM kvs h2.2 kv hkv2

end

mutual

def vsize : LuaVal → Nat
  | .table t => 1 + vsizeL t
  | _ => 1

def vsizeL : List (LKey × LuaVal) → Nat
  | [] => 0
  | (_, v) :: rest => vsize v + vsizeL rest

end

/-- Value-equality of §3 of the spec, fuel-bounded so that it stays
executable: scalars compare by value, two tables are value-equal when every
key of each maps to a value-equal value in the other (identity is ignored). -/
def vequalF : Nat → LuaVal → LuaVal → Bool
  | 0, _, _ => false
  | fuel+1, a, b =>
    match a, b with
    | .nil, .nil => true
    | .boolean x, .boolean y => x == y
    | .num x, .num y => x == y
    | .str x, .str y => x == y
    | .table xs, .table ys =>
      (xs.all fun kv =>
        match tget ys kv.1 with
        | some w => vequalF fuel kv.2 w
        | none => false) &&
      (ys.all fun kv =>
        match tget xs kv.1 with
        | some w => vequalF fuel w kv.2
        | none => false)
    | _, _ => false

def vequal (a b : LuaVal) : Bool := vequalF (vsize a + vsize b) a b

mutual

/-- Lua-table well-formedness used for reflexivity of value-equality:
pairwise-distinct keys at every level. -/
def luaWFB : LuaVal → Bool
  | .table t => nodupB (t.map Prod.fst) && luaWFL t
  | _ => true

def luaWFL : List (LKey × LuaVal) → Bool
  | [] => true
  | (_, v) :: rest => luaWFB v && luaWFL rest

end

theorem vsize_pos (v : LuaVal) : 1 ≤ vsize v := by
  cases v <;> simp [vsize]

theorem vsizeL_mem (t : List (LKey × LuaVal)) :
    ∀ kv ∈ t, vsize kv.2 ≤ vsizeL t := by
  induction t with
  | nil => intro kv hkv; exact absurd hkv (by simp)
  | cons p rest ih =>
    rcases p with ⟨k, v⟩
    intro kv hkv
    rcases List.mem_cons.mp hkv with rfl | hkv2
    · simp [vsizeL]
    · have := ih kv hkv2
      simp only [vsizeL]
      omega

theorem tget_mem_of_nodup {α} (t : List (LKey × α))
    (hnd : nodupB (t.map Prod.fst) = true) :
    ∀ kv ∈ t, tget t kv.1 = some kv.2 := by
  induction t with
  | nil => intro kv hkv; exact absurd hkv (by simp)
  | cons p rest ih =>
    rcases p with ⟨k0, v0⟩
    have h2 := nodupB_head_not_mem (by simpa using hnd)
    intro kv hkv
    rcases List.mem_cons.mp hkv with rfl | hkv2
    · rw [tget, if_pos rfl]
    · rw [tget, if_neg ?_]
      · exact ih h2.2 kv hkv2
      · intro hk
        exact h2.1 (by rw [hk]; exact List.mem_map_of_mem Prod.fst hkv2)

theorem luaWFL_mem (t : List (LKey × LuaVal)) (h : luaWFL t = true) :
    ∀ kv ∈ t, luaWFB kv.2 = true := by
  induction t with
  | nil => intro kv hkv; exact absurd hkv (by simp)
  | cons p rest ih =>
    rcases p with ⟨k, v⟩
    have h2 : (luaWFB v && luaWFL rest) = true := h
    rw [Bool.and_eq_true_iff] at h2
    intro kv hkv
    rcases List.mem_cons.mp hkv with rfl | hkv2
    · exact h2.1
    · exact ih h2.2 kv hkv2

theorem vequalF_refl : ∀ (fuel : Nat) (v : LuaVal), vsize v ≤ fuel →
    luaWFB v = true → vequalF fuel v v = true := by
  intro fuel
  induction fuel with
  | zero =>
    intro v hv _
    have := vsize_pos v
    omega
  | succ fuel ih =>
    intro v hv hwf
    match v with
    | .nil => rfl
    | .boolean b => simp [vequalF]
    | .num q => simp [vequalF]
    | .str s => simp [vequalF]
    | .table xs =>
      have h2 : (nodupB (xs.map Prod.fst) && luaWFL xs) = true := hwf
      rw [Bool.and_eq_true_iff] at h2
      have hsz : vsizeL xs ≤ fuel := by
        have : vsize (.table xs) = 1 + vsizeL xs := rfl
        omega
      rw [vequalF, Bool.and_eq_true]
      constructor
      · rw [List.all_eq_true]
        intro kv hkv
        rw [tget_mem_of_nodup xs h2.1 kv hkv]
        exact ih kv.2 (le_trans (vsizeL_mem xs kv hkv) hsz) (luaWFL_mem xs h2.2 kv hkv)
      · rw [List.all_eq_true]
        intro kv hkv
        rw [tget_mem_of_nodup xs h2.1 kv hkv]
        exact ih kv.2 (le_trans (vsizeL_mem xs kv hkv) hsz) (luaWFL_mem xs h2.2 kv hkv)

theorem vequal_refl {v : LuaVal} (h : luaWFB v = true) : vequal v v = true :=
  vequalF_refl (vsize v + vsize v) v (by omega) h

theorem seq_keys_nodup {α} (g : JVal → α) (xs : List JVal) : ∀ i,
    nodupB ((seqEntries g i xs).map Prod.fst) = true := by
  induction xs with
  | nil => intro i; rfl
  | cons x xs ih =>
    intro i
    rw [seqEntries, List.map_cons, nodupB, Bool.and_eq_true]
    refine ⟨?_, ih (i+1)⟩
    rw [Bool.not_eq_true', decide_eq_false_iff_not]
    intro hmem
    rcases List.mem_map.mp hmem with ⟨kv, hkv, hfst⟩
    rcases seqEntries_keys_num g xs (i+1) kv hkv with ⟨j, hj1, _, hj3⟩
    rw [hj3] at hfst
    have h4 : ((j : Nat) : Int) = ((i : Nat) : Int) := ratInt_inj (by injection hfst)
    omega

theorem mapEntries_mem {α} (g : JVal → α) (kvs : List (String × JVal)) :
    ∀ kv ∈ mapEntries g kvs, ∃ p ∈ kvs, kv = (LKey.str p.1, g p.2) := by
  induction kvs with
  | nil => intro kv hkv; exact absurd hkv (by simp [mapEntries])
  | cons p kvs ih =>
    rcases p with ⟨k, v⟩
    intro kv hkv
    rw [mapEntries] at hkv
    rcases List.mem_cons.mp hkv with rfl | hkv2
    · exact ⟨(k, v), List.mem_cons_self _ _, rfl⟩
    · rcases ih kv hkv2 with ⟨p, hp, hkv3⟩
      exact ⟨p, List.mem_cons_of_mem _ hp, hkv3⟩

theorem map_keys_nodup {α} (g : JVal → α) (kvs : List (String × JVal))
    (h : nodupB (kvs.map Prod.fst) = true) :
    nodupB ((mapEntries g kvs).map Prod.fst) = true := by
  induction kvs with
  | nil => rfl
  | cons p kvs ih =>
    rcases p with ⟨k, v⟩
    have h2 := nodupB_head_not_mem (by simpa using h)
    rw [mapEntries, List.map_cons, nodupB, Bool.and_eq_true]
    refine ⟨?_, ih h2.2⟩
    rw [Bool.not_eq_true', decide_eq_false_iff_not]
    intro hmem
    rcases List.mem_map.mp hmem with ⟨kv, hkv, hfst⟩
    rcases mapEntries_mem g kvs kv hkv with ⟨p, hp, rfl⟩
    have : p.1 = k := by injection hfst
    exact h2.1 (by rw [← this]; exact List.mem_map_of_mem Prod.fst hp)

mutual

theorem jvToLua_WF : ∀ (v : JVal), jvWF v = true → luaWFB (jvToLua v) = true
  | .jvB _, _ => rfl
  | .jvN _, _ => rfl
  | .jvS _, _ => rfl
  | .jvSeq xs, h => by
    show luaWFB (.table (jvSeqTbl 1 xs)) = true
    rw [jvSeqTbl_eq]
    show (nodupB ((seqEntries jvToLua 1 xs).map Prod.fst)
      && luaWFL (seqEntries jvToLua 1 xs)) = true
    rw [Bool.and_eq_true]
    exact ⟨seq_keys_nodup jvToLua xs 1, jvToLua_WFL xs h 1⟩
  | .jvMap kvs, h => by
    have h2 : (nodupB (kvs.map Prod.fst) && jvWFM kvs) = true := h
    rw [Bool.and_eq_true_iff] at h2
    show luaWFB (.table (jvMapTbl kvs)) = true
    rw [jvMapTbl_eq]
    show (nodupB ((mapEntries jvToLua kvs).map Prod.fst)
      && luaWFL (mapEntries jvToLua kvs)) = true
    rw [Bool.and_eq_true]
    exact ⟨map_keys_nodup jvToLua kvs h2.1, jvToLua_WFM kvs h2.2⟩

theorem jvToLua_WFL : ∀ (xs : List JVal), jvWFL xs = true →
    ∀ i, luaWFL (seqEntries jvToLua i xs) = true
  | [], _ => fun _ => rfl
  | x :: xs, h => by
    intro i
    have h2 : (jvWF x && jvWFL xs) = true := h
    rw [Bool.and_eq_true_iff] at h2
    show (luaWFB (jvToLua x) && luaWFL (seqEntries jvToLua (i+1) xs)) = true
    rw [Bool.and_eq_true]
    exact ⟨jvToLua_WF x h2.1, jvToLua_WFL xs h2.2 (i+1)⟩

theorem jvToLua_WFM : ∀ (kvs : List (String × JVal)), jvWFM kvs = true →
    luaWFL (mapEntries jvToLua kvs) = true
  | [], _ => rfl
  | (k, v) :: kvs, h => by
    have h2 : (noNulB k && jvWF v && jvWFM kvs) = true := h
    rw [Bool.and_eq_true_iff, Bool.and_eq_true_iff] at h2
    show (luaWFB (jvToLua v) && luaWFL (mapEntries jvToLua kvs)) = true
    rw [Bool.and_eq_true]
    exact ⟨jvToLua_WF v h2.1.2, jvToLua_WFM kvs h2.2⟩

end

/-- Claim C1 (amended): for every value built from booleans, numbers, strings,
Sequences and Mappings with pairwise-distinct, NUL-free string keys and
NUL-free string values, deserializing the serialized value — encoding to the
JSON tree, then running `lua_sax` over the event stream the external library
replays for the dumped text — reproduces the value exactly, and in particular
a value-equal result. -/
theorem c1_json_round_trip (v : JVal) (h : jvWF v = true) :
    saxDecode (jsonEvents (encode_value (jvToLua v))) = jvToLua v ∧
      vequal (saxDecode (jsonEvents (encode_value (jvToLua v)))) (jvToLua v) = true := by
  have heq : saxDecode (jsonEvents (encode_value (jvToLua v))) = jvToLua v := by
    rw [saxDecode_events, jsonRT v h]
  refine ⟨heq, ?_⟩
  rw [heq]
  exact vequal_refl (jvToLua_WF v h)

theorem c1_json_round_trip_witness :
    saxDecode (jsonEvents (encode_value (jvToLua
        (.jvMap [("a", .jvN (ratInt 1)), ("b", .jvSeq [.jvS ("x"), .jvB true])]))))
      = jvToLua (.jvMap [("a", .jvN (ratInt 1)), ("b", .jvSeq [.jvS ("x"), .jvB true])]) :=
  (c1_json_round_trip _ (by decide)).1

/-- Claim C1, counterexample: a Mapping holding the byte-sequence string
`"a\x00b"` round-trips to the table holding `"a"` — the encoder reads strings
as C strings (`ljsonlib.cpp:239`), truncating at the first NUL byte — which is
not value-equal to the original. -/
theorem c1_counterexample :
    saxDecode (jsonEvents (encode_value (jvToLua (.jvMap [("x", .jvS ("a\x00b"))]))))
        = .table [(.str ("x"), .str ("a"))] ∧
      vequal (.table [(.str ("x"), .str ("a"))])
        (jvToLua (.jvMap [("x", .jvS ("a\x00b"))])) = false :=
  ⟨rfl, by decide⟩

/-! ## Heap embedding

Cycles and sharing need table identity, so this second embedding names tables
by indices into a heap (`lua_topointer` identities).  The encoders take a fuel
argument so that they stay executable; the cycle guard bounds the real
recursion, and the theorems below quantify over any sufficient fuel.  The
guard's insert/erase pair around each table (`seen.insert(ptr)` … 
`seen.erase(ptr)`) is equivalent to passing the extended set to the recursive
calls only, which is how the embedding writes it. -/

abbrev TId := Nat

inductive HVal where
  | nil
  | boolean (b : Bool)
  | num (q : Rat)
  | str (s : String)
  | ref (t : TId)
deriving DecidableEq

abbrev HTbl := List (LKey × HVal)
abbrev Heap := List HTbl

def deref (H : Heap) (t : TId) : HTbl := H.getD t []

def HVal.isNilH : HVal → Bool
  | .nil => true
  | _ => false

inductive SErr where
  | cyclic
  | unsupported
  | fuel
  | tagMissing
  | fieldType
deriving DecidableEq

def emapM {α β} (f : α → Except SErr β) : List α → Except SErr (List β)
  | [] => .ok []
  | x :: xs =>
    match f x with
    | .error e => .error e
    | .ok y =>
      match emapM f xs with
      | .error e => .error e
      | .ok ys => .ok (y :: ys)

/-- `encode_value`/`encode_table` of the JSON encoder over the heap
(`ljsonlib.cpp:186`–`248`), with the cycle guard: entering a table whose
identity is in `seen` fails with `CyclicStructure`; children are encoded with
the extended set. -/
def encJ (H : Heap) : Nat → HVal → List TId → Except SErr Json
  | 0, _, _ => .error .fuel
  | fuel+1, v, seen =>
    match v with
    | .nil => .ok .null
    | .boolean b => .ok (.jb b)
    | .num q => .ok (.jn q)
    | .str s => .ok (.js (cstr s))
    | .ref t =>
      if t ∈ seen then .error .cyclic
      else
        if jsonIsArrayG HVal.isNilH (deref H t) then
          match emapM (fun i => encJ H fuel
              ((tget (deref H t) (.num (ratInt ((i+1 : Nat) : Int)))).getD .nil)
              (t :: seen))
            (List.range (lua_objlen HVal.isNilH (deref H t))) with
          | .error e => .error e
          | .ok js => .ok (.jarr js)
        else
          match emapM (fun kv =>
              match encJ H fuel kv.2 (t :: seen) with
              | .error e => .error e
              | .ok j => .ok (luaKeyStr kv.1, j)) (deref H t) with
          | .error e => .error e
          | .ok kvs => .ok (.jobj (kvs.foldl (fun o kj => assocUpd o kj.1 kj.2) []))

/-- `encode_lua_value`/`encode_lua_table` of the YAML encoder over the heap
(`lyamllib.cpp:153`–`234`), with the cycle guard and the mapping branch's
nil-skip. -/
def encY (H : Heap) : Nat → HVal → List TId → Except SErr YNode
  | 0, _, _ => .error .fuel
  | fuel+1, v, seen =>
    match v with
    | .nil => .ok .null
    | .boolean b => .ok (.yb b)
    | .num q => .ok (.yn q)
    | .str s => .ok (.ys (cstr s))
    | .ref t =>
      if t ∈ seen then .error .cyclic
      else
        if yamlIsArrayG HVal.isNilH (deref H t) then
          match emapM (fun i => encY H fuel
              ((tget (deref H t) (.num (ratInt ((i+1 : Nat) : Int)))).getD .nil)
              (t :: seen))
            (List.range (lua_objlen HVal.isNilH (deref H t))) with
          | .error e => .error e
          | .ok ys => .ok (.yseq ys)
        else
          match emapM (fun kv =>
              if kv.2.isNilH then .ok none
              else
                match encY H fuel kv.2 (t :: seen) with
                | .error e => .error e
                | .ok y => .ok (some (luaKeyStr kv.1, y))) (deref H t) with
          | .error e => .error e
          | .ok kvs =>
            .ok (.ymap ((kvs.filterMap id).foldl (fun a kj => assocUpd a kj.1 kj.2) []))

inductive TomlV where
  | ts (s : String)
  | tn (q : Rat)
  | tb (b : Bool)
  | tarr (xs : List TomlV)
  | ttab (kvs : List (String × TomlV))

/-- `toml::table::insert`: does not overwrite an existing key (external
library, modelled from its contract; no claim depends on the choice). -/
def insertIfAbsent {β} (acc : List (String × β)) (k : String) (v : β) :
    List (String × β) :=
  if (acc.map Prod.fst).contains k then acc else acc ++ [(k, v)]

mutual

/-- `encode_lua_table` of the TOML encoder (`part_000:145`–`187`): guarded by
the cycle check; string-coercible keys; table values dispatch on `is_array`. -/
def encTomlTable (H : Heap) : Nat → TId → List TId → Except SErr TomlV
  | 0, _, _ => .error .fuel
  | fuel+1, t, seen =>
    if t ∈ seen then .error .cyclic
    else
      match emapM (fun kv =>
          match kv.2 with
          | .str s => .ok (luaKeyStr kv.1, TomlV.ts (cstr s))
          | .num q => .ok (luaKeyStr kv.1, TomlV.tn q)
          | .boolean b => .ok (luaKeyStr kv.1, TomlV.tb b)
          | .ref u =>
            if tomlIsArrayG HVal.isNilH (deref H u) then
              match encTomlArray H fuel u (t :: seen) with
              | .error e => .error e
              | .ok a => .ok (luaKeyStr kv.1, a)
            else
              match encTomlTable H fuel u (t :: seen) with
              | .error e => .error e
              | .ok tb2 => .ok (luaKeyStr kv.1, tb2)
          | .nil => .error .unsupported) (deref H t) with
      | .error e => .error e
      | .ok kvs =>
        .ok (.ttab (kvs.foldl (fun a kj => insertIfAbsent a kj.1 kj.2) []))

/-- `encode_lua_array` of the TOML encoder (`part_000:113`–`143`): **no**
cycle check and no insertion into `seen`; elements `1..lua_objlen`. -/
def encTomlArray (H : Heap) : Nat → TId → List TId → Except SErr TomlV
  | 0, _, _ => .error .fuel
  | fuel+1, a, seen =>
    match emapM (fun i =>
        match (tget (deref H a) (.num (ratInt ((i+1 : Nat) : Int)))).getD .nil with
        | .str s => .ok (TomlV.ts (cstr s))
        | .num q => .ok (TomlV.tn q)
        | .boolean b => .ok (TomlV.tb b)
        | .ref u =>
          if tomlIsArrayG HVal.isNilH (deref H u) then encTomlArray H fuel u seen
          else encTomlTable H fuel u seen
        | .nil => .error .unsupported)
      (List.range (lua_objlen HVal.isNilH (deref H a))) with
    | .error e => .error e
    | .ok xs => .ok (.tarr xs)

end

/-- One character of `xml_escape_append` (`lxmllib.cpp:94`–`120`): exactly the
five characters `& < > " '` are replaced, every other byte is copied. -/
def xmlEscChar (c : Char) : String :=
  if c = '&' then "&amp;"
  else if c = '<' then "&lt;"
  else if c = '>' then "&gt;"
  else if c = '"' then "&quot;"
  else if c = '\'' then "&apos;"
  else String.singleton c

/-- `xml_escape_append`: the loop reads the C string up to its first NUL
(`for (p = s; *p; ++p)`), escaping each byte. -/
def xml_escape_append (s : String) : String :=
  (cstr s).data.foldl (fun acc c => acc ++ xmlEscChar c) ("")

def emit_indent (d : Nat) : String := String.mk (List.replicate d '\t')

/-- `get_field_string` (`lxmllib.cpp:130`): nil → absent, strings returned
with their full length (`lua_tolstring` with `outLen`), numbers coerce,
anything else errors. -/
def get_field_string (tb : HTbl) (name : String) : Except SErr (Option String) :=
  match tget tb (.str name) with
  | none => .ok none
  | some .nil => .ok none
  | some (.str s) => .ok (some s)
  | some (.num q) => .ok (some (numToStr q))
  | some _ => .error .fieldType

/-- `emit_attributes` (`lxmllib.cpp:148`): keys and values must be strings
(numbers coerce); the key is appended as a C string, the value escaped. -/
def emit_attributes (atb : HTbl) : Except SErr String :=
  match emapM (fun kv =>
      match kv.2 with
      | .str s => .ok (" " ++ luaKeyStr kv.1 ++ "=\"" ++ xml_escape_append s ++ "\"")
      | .num q =>
        .ok (" " ++ luaKeyStr kv.1 ++ "=\"" ++ xml_escape_append (numToStr q) ++ "\"")
      | _ => .error .fieldType) atb with
  | .error e => .error e
  | .ok parts => .ok (parts.foldl (fun a p => a ++ p) (""))

/-- `emit_element` (`lxmllib.cpp:189`–`261`): cycle-guarded on the element
record's identity; reads only the `tag`, `attr`, `text` and `children`
fields; self-closing tag when there is neither non-empty text nor a child;
children are emitted one tab deeper.  The tag is emitted with its **full**
length (`std::string(tag, tagLen)`), unlike attribute values and text. -/
def emit_element (H : Heap) : Nat → TId → List TId → Nat → Except SErr String
  | 0, _, _, _ => .error .fuel
  | fuel+1, t, seen, depth =>
    if t ∈ seen then .error .cyclic
    else
      match get_field_string (deref H t) ("tag") with
      | .error e => .error e
      | .ok none => .error .tagMissing
      | .ok (some tag) =>
        if tag.length = 0 then .error .tagMissing
        else
          match (match tget (deref H t) (.str ("attr")) with
            | none => .ok none
            | some .nil => .ok none
            | some (.ref a) => .ok (some (deref H a))
            | some _ => .error .fieldType : Except SErr (Option HTbl)) with
          | .error e => .error e
          | .ok attrTb =>
            match get_field_string (deref H t) ("text") with
            | .error e => .error e
            | .ok textOpt =>
              match (match tget (deref H t) (.str ("children")) with
                | none => .ok none
                | some .nil => .ok none
                | some (.ref c) => .ok (some (deref H c))
                | some _ => .error .fieldType : Except SErr (Option HTbl)) with
              | .error e => .error e
              | .ok childTb =>
                match (match attrTb with
                  | none => .ok ("")
                  | some atb => emit_attributes atb : Except SErr String) with
                | .error e => .error e
                | .ok attrStr =>
                  let hasChildren := match childTb with
                    | some ctb => decide (0 < lua_objlen HVal.isNilH ctb)
                    | none => false
                  let hasText := match textOpt with
                    | some txt => decide (0 < txt.length)
                    | none => false
                  let opening := emit_indent depth ++ "<" ++ tag ++ attrStr
                  if !hasChildren && !hasText then .ok (opening ++ "/>\n")
                  else
                    let textPart := match textOpt with
                      | some txt => if 0 < txt.length then xml_escape_append txt else ""
                      | none => ""
                    match (if hasChildren then
                        match childTb with
                        | some ctb =>
                          match emapM (fun i =>
                              match (tget ctb
                                  (.num (ratInt ((i+1 : Nat) : Int)))).getD .nil with
                              | .ref u => emit_element H fuel u (t :: seen) (depth+1)
                              | _ => .error .fieldType)
                            (List.range (lua_objlen HVal.isNilH ctb)) with
                          | .error e => .error e
                          | .ok parts =>
                            .ok (parts.foldl (fun a p => a ++ p) ("") ++ emit_indent depth)
                        | none => .ok ("")
                      else .ok ("") : Except SErr String) with
                    | .error e => .error e
                    | .ok childPart =>
                      .ok (opening ++ ">" ++ textPart ++
                        (if hasChildren then "\n" else "") ++ childPart ++
                        "</" ++ tag ++ ">\n")

/-- `xmlserialize` (`lxmllib.cpp:263`): emit the root element at depth 0 with
a fresh identity set. -/
def xmlserialize (H : Heap) (fuel : Nat) (root : TId) : Except SErr String :=
  emit_element H fuel root [] 0

/-! ## Claim C6: the cycle guard

Reachability through table-entry values, and the generic argument that a
guarded traversal that succeeds can have followed no cycle. -/

def tblRefs (tb : HTbl) : List TId :=
  tb.filterMap fun kv =>
    match kv.2 with
    | .ref u => some u
    | _ => none

def edgeH (H : Heap) (a b : TId) : Prop := b ∈ tblRefs (deref H a)

/-- Walks of length `n` avoiding the identities in `A` (every node of the
walk, endpoints included, is outside `A`). -/
def WalkN (H : Heap) (A : List TId) : Nat → TId → TId → Prop
  | 0, a, b => a = b ∧ a ∉ A
  | n+1, a, b => a ∉ A ∧ ∃ c, edgeH H a c ∧ WalkN H A n c b

/-- The table `t` contains a reference to itself, directly or transitively
through the values of its descendants. -/
def SelfRef (H : Heap) (t : TId) : Prop :=
  ∃ n u, WalkN H [] n t u ∧ edgeH H u t

theorem walkSplit (H : Heap) (A : List TId) (t : TId) :
    ∀ (n : Nat) (a b : TId), WalkN H A n a b →
      WalkN H (t :: A) n a b ∨ ∃ m, m ≤ n ∧ WalkN H A m t b := by
  intro n
  induction n with
  | zero =>
    intro a b h
    rcases h with ⟨rfl, ha⟩
    by_cases hat : a = t
    · subst hat
      exact Or.inr ⟨0, le_refl 0, rfl, ha⟩
    · exact Or.inl ⟨rfl, by simp [ha, Ne.symm hat, hat]⟩
  | succ n ih =>
    intro a b h
    rcases h with ⟨ha, c, hedge, hwalk⟩
    by_cases hat : a = t
    · subst hat
      exact Or.inr ⟨n+1, le_refl _, ha, c, hedge, hwalk⟩
    · rcases ih c b hwalk with h2 | ⟨m, hm, h2⟩
      · exact Or.inl ⟨by simp [ha, hat], c, hedge, h2⟩
      · exact Or.inr ⟨m, by omega, h2⟩

theorem walk_edge_refs_ne (H : Heap) (A : List TId) :
    ∀ (n : Nat) (c w x : TId), WalkN H A n c w → edgeH H w x →
      tblRefs (deref H c) ≠ [] := by
  intro n c w x hwalk hedge
  cases n with
  | zero =>
    obtain ⟨heq, -⟩ := hwalk
    subst heq
    exact List.ne_nil_of_mem hedge
  | succ n =>
    obtain ⟨-, c2, hedge2, -⟩ := hwalk
    exact List.ne_nil_of_mem hedge2

/-- The generic cycle-guard argument: `F fuel t A` states that the encoder's
table entry succeeds on table `t` with guard set `A`.  If a call succeeds,
then no walk from `t` (avoiding `A`) can step into `t` or `A` again through a
node with outgoing references. -/
theorem guard_no_cycle (H : Heap) (F : Nat → TId → List TId → Bool)
    (hF0 : ∀ t A, F 0 t A = false)
    (hG : ∀ fuel t A, F fuel t A = true → t ∉ A)
    (hStep : ∀ fuel t A, F (fuel+1) t A = true → ∀ u, u ∈ tblRefs (deref H t) →
      tblRefs (deref H u) ≠ [] → F fuel u (t :: A) = true) :
    ∀ (n fuel : Nat) (t : TId) (A : List TId) (w x : TId),
      F fuel t A = true → WalkN H A n t w → edgeH H w x →
      tblRefs (deref H x) ≠ [] → x ∉ (t :: A) := by
  intro n
  induction n using Nat.strong_induction_on with
  | _ n ih =>
    intro fuel t A w x hF hwalk hedge hxref
    match fuel with
    | 0 =>
      rw [hF0] at hF
      exact absurd hF (by simp)
    | fuel+1 =>
      match n, hwalk with
      | 0, hw0 =>
        obtain ⟨heq, -⟩ := hw0
        subst heq
        have hchild := hStep fuel t A hF x hedge hxref
        exact hG fuel x (t :: A) hchild
      | m+1, ⟨hta, c, hec, hwc⟩ =>
        have hcref : tblRefs (deref H c) ≠ [] :=
          walk_edge_refs_ne H A m c w x hwc hedge
        have hFc : F fuel c (t :: A) = true := hStep fuel t A hF c hec hcref
        rcases walkSplit H A t m c w hwc with h2 | ⟨k, hk, h2⟩
        · have := ih m (by omega) fuel c (t :: A) w x hFc h2 hedge hxref
          intro hx
          exact this (List.mem_cons_of_mem _ hx)
        · exact ih k (by omega) (fuel+1) t A w x hF h2 hedge hxref

/-- A self-referential table cannot be encoded successfully by a guarded
traversal. -/
theorem guard_kills_selfref (H : Heap) (F : Nat → TId → List TId → Bool)
    (hF0 : ∀ t A, F 0 t A = false)
    (hG : ∀ fuel t A, F fuel t A = true → t ∉ A)
    (hStep : ∀ fuel t A, F (fuel+1) t A = true → ∀ u, u ∈ tblRefs (deref H t) →
      tblRefs (deref H u) ≠ [] → F fuel u (t :: A) = true) :
    ∀ (fuel : Nat) (t : TId), SelfRef H t → F fuel t [] = true → False := by
  intro fuel t hself hF
  rcases hself with ⟨n, u, hwalk, hedge⟩
  have htref : tblRefs (deref H t) ≠ [] := by
    cases n with
    | zero =>
      obtain ⟨heq, -⟩ := hwalk
      subst heq
      exact List.ne_nil_of_mem hedge
    | succ n =>
      obtain ⟨-, c, hec, -⟩ := hwalk
      exact List.ne_nil_of_mem hec
  have := guard_no_cycle H F hF0 hG hStep n fuel t [] u t hF hwalk hedge htref
  exact this (List.mem_cons_self t [])

def isOkE {β} : Except SErr β → Bool
  | .ok _ => true
  | .error _ => false

theorem isOkE_ok {β} {r : Except SErr β} (h : isOkE r = true) : ∃ y, r = .ok y := by
  cases r with
  | ok y => exact ⟨y, rfl⟩
  | error e => exact absurd h (by simp [isOkE])

theorem emapM_ok_mem {α β} {f : α → Except SErr β} :
    ∀ {l : List α} {ys : List β}, emapM f l = .ok ys → ∀ a ∈ l, ∃ y, f a = .ok y := by
  intro l
  induction l with
  | nil => intro ys _ a ha; exact absurd ha (by simp)
  | cons x xs ih =>
    intro ys hok a ha
    rw [emapM] at hok
    match hfx : f x with
    | .error e => rw [hfx] at hok; exact Except.noConfusion hok
    | .ok y =>
      rw [hfx] at hok
      match hrest : emapM f xs with
      | .error e => rw [hrest] at hok; exact Except.noConfusion hok
      | .ok ys2 =>
        rcases List.mem_cons.mp ha with rfl | ha2
        · exact ⟨y, hfx⟩
        · exact ih hrest a ha2

theorem emapM_ok_or_err {α β} {f : α → Except SErr β} {E : SErr} :
    ∀ {l : List α}, (∀ a ∈ l, (∃ y, f a = .ok y) ∨ f a = .error E) →
      (∃ ys, emapM f l = .ok ys) ∨ emapM f l = .error E := by
  intro l
  induction l with
  | nil => intro _; exact Or.inl ⟨[], rfl⟩
  | cons x xs ih =>
    intro h
    rcases h x (List.mem_cons_self _ _) with ⟨y, hy⟩ | hy
    · rcases ih (fun a ha => h a (List.mem_cons_of_mem _ ha)) with ⟨ys, hys⟩ | hys
      · exact Or.inl ⟨y :: ys, by rw [emapM, hy, hys]⟩
      · exact Or.inr (by rw [emapM, hy, hys])
    · exact Or.inr (by rw [emapM, hy])

theorem emapM_congr {α β} {f g : α → Except SErr β} :
    ∀ {l : List α}, (∀ a ∈ l, f a = g a) → emapM f l = emapM g l := by
  intro l
  induction l with
  | nil => intro _; rfl
  | cons x xs ih =>
    intro h
    rw [emapM, emapM, h x (List.mem_cons_self _ _),
      ih fun a ha => h a (List.mem_cons_of_mem _ ha)]

theorem emapM_map {α β γ} (f : β → Except SErr γ) (φ : α → β) :
    ∀ (l : List α), emapM f (l.map φ) = emapM (fun a => f (φ a)) l := by
  intro l
  induction l with
  | nil => rfl
  | cons x xs ih => rw [List.map_cons, emapM, emapM, ih]

/-- Heap well-formedness for the cycle claims: at every table, keys pairwise
distinct, values non-nil, references in range — exactly the shape every actual
Lua table graph has (fractional numeric keys are legal and allowed here). -/
def wfTbl (H : Heap) (tb : HTbl) : Bool :=
  nodupB (tb.map Prod.fst) &&
  tb.all fun kv =>
    !kv.2.isNilH &&
    (match kv.2 with
      | .ref u => decide (u < H.length)
      | _ => true)

def wfHeap (H : Heap) : Bool := H.all (wfTbl H)

/-- Every numeric key of the table is an exact integer.  This is **not** a Lua
invariant (fractional keys are legal); it is the extra condition under which
the JSON cycle guard is complete, see `c6_cycle_guard` and its
counterexample. -/
def exactKeysB (tb : HTbl) : Bool :=
  tb.all fun kv =>
    match kv.1 with
    | .num q => isExactInt q
    | .str _ => true

def exactHeap (H : Heap) : Bool := H.all exactKeysB

theorem deref_wf {H : Heap} (hwf : wfHeap H = true) (t : TId) :
    wfTbl H (deref H t) = true := by
  by_cases ht : t < H.length
  · exact (List.all_eq_true.mp hwf) _ (getD_mem_of_lt H [] t ht)
  · push_neg at ht
    have hd : deref H t = [] := by
      unfold deref
      exact List.getD_eq_default _ _ ht
    rw [hd]
    rfl

theorem wfTbl_parts {H : Heap} {tb : HTbl} (h : wfTbl H tb = true) :
    nodupB (tb.map Prod.fst) = true ∧
      ∀ kv ∈ tb,
        kv.2.isNilH = false ∧
        (match kv.2 with
          | .ref u => u < H.length
          | _ => True) := by
  rw [wfTbl, Bool.and_eq_true] at h
  refine ⟨h.1, fun kv hkv => ?_⟩
  have h2 := (List.all_eq_true.mp h.2) kv hkv
  rw [Bool.and_eq_true] at h2
  refine ⟨by simpa using h2.1, ?_⟩
  match hv : kv.2 with
  | .ref u =>
    have := h2.2
    rw [hv] at this
    simpa using this
  | .nil => trivial
  | .boolean b => trivial
  | .num q => trivial
  | .str s => trivial

theorem exact_deref {H : Heap} (hex : exactHeap H = true) (t : TId) :
    ∀ kv ∈ deref H t,
      (match kv.1 with
        | .num q => isExactInt q
        | .str _ => true) = true := by
  intro kv hkv
  by_cases ht : t < H.length
  · have h1 : exactKeysB (deref H t) = true :=
      (List.all_eq_true.mp hex) _ (getD_mem_of_lt H [] t ht)
    exact (List.all_eq_true.mp h1) kv hkv
  · push_neg at ht
    have hd : deref H t = [] := by
      unfold deref
      exact List.getD_eq_default _ _ ht
    rw [hd] at hkv
    exact absurd hkv (List.not_mem_nil kv)

theorem mem_tblRefs {tb : HTbl} {u : TId} :
    u ∈ tblRefs tb ↔ ∃ kv ∈ tb, kv.2 = .ref u := by
  unfold tblRefs
  rw [List.mem_filterMap]
  constructor
  · rintro ⟨kv, hkv, hm⟩
    refine ⟨kv, hkv, ?_⟩
    match hv : kv.2 with
    | .ref w =>
      rw [hv] at hm
      simp only [Option.some.injEq] at hm
      rw [hm]
    | .nil => rw [hv] at hm; exact Option.noConfusion hm
    | .boolean b => rw [hv] at hm; exact Option.noConfusion hm
    | .num q => rw [hv] at hm; exact Option.noConfusion hm
    | .str s => rw [hv] at hm; exact Option.noConfusion hm
  · rintro ⟨kv, hkv, hv⟩
    exact ⟨kv, hkv, by rw [hv]⟩

theorem rat_eq_ratInt_of_den_one {q : Rat} (h : q.den = 1) : q = ratInt q.num := by
  have hd : q.den = (ratInt q.num).den := by rw [h]; rfl
  exact Rat.ext rfl hd

theorem ratTrunc_den_one {q : Rat} (h : q.den = 1) : ratTrunc q = q.num := by
  unfold ratTrunc
  rw [h]
  simp [Int.tdiv_one]

theorem nodup_bounded_length (l : List Nat) (n : Nat) (hnd : l.Nodup)
    (hb : ∀ x ∈ l, x < n) : l.length ≤ n := by
  classical
  have h1 : l.toFinset.card = l.length := List.toFinset_card_of_nodup hnd
  have h2 : l.toFinset ⊆ Finset.range n := by
    intro x hx
    rw [List.mem_toFinset] at hx
    exact Finset.mem_range.mpr (hb x hx)
  have h3 := Finset.card_le_card h2
  rw [h1, Finset.card_range] at h3
  exact h3

/-- In an array-classified table with well-formed keys every entry's value is
one of the values the array branch reads at indices `1..len`. -/
theorem array_covers_entry {tb : HTbl} (hnd : nodupB (tb.map Prod.fst) = true) :
    ∀ kv ∈ tb, ∀ q : Rat, kv.1 = .num q → isExactInt q = true →
      1 ≤ ratTrunc q → ratTrunc q ≤ (lua_objlen HVal.isNilH tb : Int) →
      ∃ i, i < lua_objlen HVal.isNilH tb ∧
        (tget tb (.num (ratInt ((i+1 : Nat) : Int)))).getD .nil = kv.2 := by
  intro kv hkv q hk hexact h1 h2
  have hden : q.den = 1 := by simpa [isExactInt] using hexact
  have htr : ratTrunc q = q.num := ratTrunc_den_one hden
  rw [htr] at h1 h2
  refine ⟨q.num.toNat - 1, ?_, ?_⟩
  · have : (q.num.toNat : Int) = q.num := Int.toNat_of_nonneg (by omega)
    omega
  · have hi : ((q.num.toNat - 1 + 1 : Nat) : Int) = q.num := by
      have h3 : (q.num.toNat : Int) = q.num := Int.toNat_of_nonneg (by omega)
      have h4 : 1 ≤ q.num.toNat := by omega
      omega
    rw [hi, ← rat_eq_ratInt_of_den_one hden, ← hk,
      tget_mem_of_nodup tb hnd kv hkv]
    rfl

theorem tget_some_mem {α} {t : List (LKey × α)} {k : LKey} {v : α}
    (h : tget t k = some v) : (k, v) ∈ t := by
  induction t with
  | nil => exact Option.noConfusion h
  | cons p rest ih =>
    rcases p with ⟨k', v'⟩
    rw [tget] at h
    by_cases hk : k' = k
    · rw [if_pos hk] at h
      rw [Option.some.injEq] at h
      rw [hk, h]
      exact List.mem_cons_self _ _
    · rw [if_neg hk] at h
      exact List.mem_cons_of_mem _ (ih h)

theorem jsonIsArrayG_keys {α} {isNil : α → Bool} {t : List (LKey × α)}
    (h : jsonIsArrayG isNil t = true) :
    ∀ kv ∈ t, (match kv.1 with
      | .num q =>
          decide (1 ≤ ratTrunc q) && decide (ratTrunc q ≤ (lua_objlen isNil t : Int))
      | .str _ => false) = true := by
  unfold jsonIsArrayG at h
  by_cases hc : (lua_objlen isNil t == 0 && t.isEmpty) = true
  · rw [if_pos hc] at h
    exact absurd h (by simp)
  · rw [if_neg hc, Bool.and_eq_true] at h
    exact fun kv hkv => (List.all_eq_true.mp h.2) kv hkv

theorem yamlIsArrayG_keys {α} {isNil : α → Bool} {t : List (LKey × α)}
    (h : yamlIsArrayG isNil t = true) (hne : t ≠ []) :
    ∀ kv ∈ t, (match kv.1 with
      | .num q =>
          isExactInt q && decide (1 ≤ ratTrunc q) &&
            decide (ratTrunc q ≤ (lua_objlen isNil t : Int))
      | .str _ => false) = true := by
  unfold yamlIsArrayG at h
  rw [if_neg (by simpa [List.isEmpty_iff] using hne), Bool.and_eq_true] at h
  exact fun kv hkv => (List.all_eq_true.mp h.2) kv hkv

theorem walk_pos_last (H : Heap) : ∀ (n : Nat) (a b : TId),
    WalkN H [] (n+1) a b → ∃ m w, WalkN H [] m a w ∧ edgeH H w b := by
  intro n
  induction n with
  | zero =>
    intro a b h
    obtain ⟨ha, c, hedge, hc⟩ := h
    obtain ⟨heq, -⟩ := hc
    subst heq
    exact ⟨0, a, ⟨rfl, ha⟩, hedge⟩
  | succ n ih =>
    intro a b h
    obtain ⟨ha, c, hedge, hc⟩ := h
    rcases ih c b hc with ⟨m, w, hw, hwb⟩
    exact ⟨m+1, w, ⟨ha, c, hedge, hw⟩, hwb⟩

theorem emapM_ok_of_all {α β} {f : α → Except SErr β} :
    ∀ {l : List α}, (∀ a ∈ l, ∃ y, f a = .ok y) → ∃ ys, emapM f l = .ok ys := by
  intro l
  induction l with
  | nil => intro _; exact ⟨[], rfl⟩
  | cons x xs ih =>
    intro h
    rcases h x (List.mem_cons_self _ _) with ⟨y, hy⟩
    rcases ih (fun a ha => h a (List.mem_cons_of_mem _ ha)) with ⟨ys, hys⟩
    exact ⟨y :: ys, by rw [emapM, hy, hys]⟩

def SeenInv (H : Heap) (seen : List TId) : Prop :=
  seen.Nodup ∧ ∀ x ∈ seen, x < H.length

theorem seenInv_cons {H : Heap} {seen : List TId} {t : TId} (h : SeenInv H seen)
    (ht : t < H.length) (htA : t ∉ seen) : SeenInv H (t :: seen) := by
  refine ⟨List.nodup_cons.mpr ⟨htA, h.1⟩, ?_⟩
  intro x hx
  rcases List.mem_cons.mp hx with rfl | hx2
  · exact ht
  · exact h.2 x hx2

theorem seenInv_length {H : Heap} {seen : List TId} (h : SeenInv H seen) :
    seen.length ≤ H.length :=
  nodup_bounded_length seen H.length h.1 h.2

/-- `encode_table` never succeeds on a table already in the guard set. -/
theorem encJ_guard (H : Heap) (fuel : Nat) (t : TId) (A : List TId)
    (h : isOkE (encJ H fuel (.ref t) A) = true) : t ∉ A := by
  match fuel with
  | 0 => simp [encJ, isOkE] at h
  | fuel+1 =>
    intro hmem
    simp only [encJ] at h
    rw [if_pos hmem] at h
    simp [isOkE] at h

/-- A successful JSON table encode implies every referenced child table also
encodes successfully under the extended guard set.  The exact-integer-key
hypothesis `hex` is essential: the JSON classifier accepts fractional keys by
truncation, and the array branch never reads their entries (see the C6
counterexample). -/
theorem encJ_step (H : Heap) (hwf : wfHeap H = true) (hex : exactHeap H = true)
    (fuel : Nat) (t : TId)
    (A : List TId) (h : isOkE (encJ H (fuel+1) (.ref t) A) = true) :
    ∀ u, u ∈ tblRefs (deref H t) → isOkE (encJ H fuel (.ref u) (t :: A)) = true := by
  intro u humem
  rcases mem_tblRefs.mp humem with ⟨kv, hkv, hval⟩
  have hwtb := wfTbl_parts (deref_wf hwf t)
  simp only [encJ] at h
  by_cases htA : t ∈ A
  · rw [if_pos htA] at h
    simp [isOkE] at h
  · rw [if_neg htA] at h
    by_cases harr : jsonIsArrayG HVal.isNilH (deref H t) = true
    · rw [if_pos harr] at h
      have hkeyb := jsonIsArrayG_keys harr kv hkv
      match hk : kv.1 with
      | .str s =>
        rw [hk] at hkeyb
        exact absurd hkeyb (by simp)
      | .num q =>
        rw [hk] at hkeyb
        rw [Bool.and_eq_true, decide_eq_true_eq, decide_eq_true_eq] at hkeyb
        have hexact : isExactInt q = true := by
          have h2 := exact_deref hex t kv hkv
          rw [hk] at h2
          exact h2
        rcases array_covers_entry hwtb.1 kv hkv q hk hexact hkeyb.1 hkeyb.2
          with ⟨i, hi, hival⟩
        split at h
        · simp [isOkE] at h
        · next js heq =>
          rcases emapM_ok_mem heq i (List.mem_range.mpr hi) with ⟨y, hy⟩
          rw [hival, hval] at hy
          rw [hy]
          rfl
    · rw [if_neg harr] at h
      split at h
      · simp [isOkE] at h
      · next kvs heq =>
        rcases emapM_ok_mem heq kv hkv with ⟨y, hy⟩
        rw [hval] at hy
        split at hy
        · exact Except.noConfusion hy
        · next j henc =>
          rw [henc]
          rfl

/-- Under well-formedness and sufficient fuel, the JSON heap encoder either
succeeds or fails with the cyclic-structure error — no other error occurs. -/
theorem encJ_total (H : Heap) (hwf : wfHeap H = true) :
    ∀ (fuel : Nat) (v : HVal) (seen : List TId),
      (∀ u, v = .ref u → u < H.length) →
      SeenInv H seen →
      H.length + 1 ≤ fuel + seen.length →
      (∃ j, encJ H fuel v seen = .ok j) ∨ encJ H fuel v seen = .error .cyclic := by
  intro fuel
  induction fuel with
  | zero =>
    intro v seen _ hinv hbound
    exfalso
    have := seenInv_length hinv
    omega
  | succ fuel ih =>
    intro v seen hv hinv hbound
    match v with
    | .nil => exact Or.inl ⟨_, rfl⟩
    | .boolean b => exact Or.inl ⟨_, rfl⟩
    | .num q => exact Or.inl ⟨_, rfl⟩
    | .str s => exact Or.inl ⟨_, rfl⟩
    | .ref t =>
      have ht : t < H.length := hv t rfl
      simp only [encJ]
      by_cases htA : t ∈ seen
      · rw [if_pos htA]
        exact Or.inr rfl
      · rw [if_neg htA]
        have hinv2 : SeenInv H (t :: seen) := seenInv_cons hinv ht htA
        have hbound2 : H.length + 1 ≤ fuel + (t :: seen).length := by
          simp only [List.length_cons]
          omega
        have hwtb := wfTbl_parts (deref_wf hwf t)
        have hchild : ∀ (w : HVal), (∀ u, w = .ref u → u < H.length) →
            (∃ j, encJ H fuel w (t :: seen) = .ok j) ∨
              encJ H fuel w (t :: seen) = .error .cyclic :=
          fun w hw => ih w (t :: seen) hw hinv2 hbound2
        by_cases harr : jsonIsArrayG HVal.isNilH (deref H t) = true
        · rw [if_pos harr]
          have hall : ∀ i ∈ List.range (lua_objlen HVal.isNilH (deref H t)),
              (∃ y, encJ H fuel
                ((tget (deref H t) (.num (ratInt ((i+1 : Nat) : Int)))).getD .nil)
                (t :: seen) = .ok y) ∨
              encJ H fuel
                ((tget (deref H t) (.num (ratInt ((i+1 : Nat) : Int)))).getD .nil)
                (t :: seen) = .error .cyclic := by
            intro i _
            apply hchild
            intro u heq
            match hg : tget (deref H t) (.num (ratInt ((i+1 : Nat) : Int))) with
            | none =>
              rw [hg] at heq
              exact absurd heq (by simp)
            | some w =>
              rw [hg] at heq
              simp only [Option.getD_some] at heq
              have hmem := tget_some_mem hg
              have h3 := (hwtb.2 _ hmem).2
              rw [heq] at h3
              exact h3
          rcases emapM_ok_or_err hall with ⟨ys, hys⟩ | hys
          · rw [hys]
            exact Or.inl ⟨_, rfl⟩
          · rw [hys]
            exact Or.inr rfl
        · rw [if_neg harr]
          have hall : ∀ kv ∈ deref H t,
              (∃ y, (match encJ H fuel kv.2 (t :: seen) with
                | .error e => Except.error e
                | .ok j => Except.ok (luaKeyStr kv.1, j)) = .ok y) ∨
              (match encJ H fuel kv.2 (t :: seen) with
                | .error e => Except.error e
                | .ok j => Except.ok (luaKeyStr kv.1, j)) = .error SErr.cyclic := by
            intro kv hkv
            have hw : ∀ u, kv.2 = .ref u → u < H.length := by
              intro u heq
              have h3 := (hwtb.2 kv hkv).2
              rw [heq] at h3
              exact h3
            rcases hchild kv.2 hw with ⟨j, hj⟩ | hj
            · rw [hj]
              exact Or.inl ⟨_, rfl⟩
            · rw [hj]
              exact Or.inr rfl
          rcases emapM_ok_or_err hall with ⟨ys, hys⟩ | hys
          · rw [hys]
            exact Or.inl ⟨_, rfl⟩
          · rw [hys]
            exact Or.inr rfl

/-- On an acyclic heap the JSON heap encoder succeeds (in particular, a table
referenced twice as non-nested siblings encodes without error: the guard is
erased on exit, so sharing is not cyclicity). -/
theorem encJ_acyclic (H : Heap) (hwf : wfHeap H = true)
    (hacy : ∀ u, ¬ SelfRef H u) :
    ∀ (fuel : Nat) (v : HVal) (seen : List TId),
      (∀ u, v = .ref u → u < H.length ∧ ∀ n w, WalkN H [] n u w → w ∉ seen) →
      SeenInv H seen →
      H.length + 1 ≤ fuel + seen.length →
      ∃ j, encJ H fuel v seen = .ok j := by
  intro fuel
  induction fuel with
  | zero =>
    intro v seen _ hinv hbound
    exfalso
    have := seenInv_length hinv
    omega
  | succ fuel ih =>
    intro v seen hv hinv hbound
    match v with
    | .nil => exact ⟨_, rfl⟩
    | .boolean b => exact ⟨_, rfl⟩
    | .num q => exact ⟨_, rfl⟩
    | .str s => exact ⟨_, rfl⟩
    | .ref t =>
      obtain ⟨ht, hreach⟩ := hv t rfl
      have htA : t ∉ seen := hreach 0 t ⟨rfl, by simp⟩
      simp only [encJ]
      rw [if_neg htA]
      have hinv2 : SeenInv H (t :: seen) := seenInv_cons hinv ht htA
      have hbound2 : H.length + 1 ≤ fuel + (t :: seen).length := by
        simp only [List.length_cons]
        omega
      have hwtb := wfTbl_parts (deref_wf hwf t)
      have hchild : ∀ (w : HVal),
          (∀ u, w = .ref u → u ∈ tblRefs (deref H t) ∧ u < H.length) →
          ∃ j, encJ H fuel w (t :: seen) = .ok j := by
        intro w hw
        apply ih w (t :: seen) ?_ hinv2 hbound2
        intro u heq
        obtain ⟨hut, hur⟩ := hw u heq
        refine ⟨hur, ?_⟩
        intro n x hwalk
        have hedge : edgeH H t u := hut
        have hwalk2 : WalkN H [] (n+1) t x := ⟨by simp, u, hedge, hwalk⟩
        intro hxmem
        rcases List.mem_cons.mp hxmem with heq2 | hxseen
        · subst heq2
          rcases walk_pos_last H n x x hwalk2 with ⟨m, w2, hmw, hwb⟩
          exact hacy x ⟨m, w2, hmw, hwb⟩
        · exact hreach (n+1) x hwalk2 hxseen
      by_cases harr : jsonIsArrayG HVal.isNilH (deref H t) = true
      · rw [if_pos harr]
        have hall : ∀ i ∈ List.range (lua_objlen HVal.isNilH (deref H t)),
            ∃ y, encJ H fuel
              ((tget (deref H t) (.num (ratInt ((i+1 : Nat) : Int)))).getD .nil)
              (t :: seen) = .ok y := by
          intro i _
          apply hchild
          intro u heq
          match hg : tget (deref H t) (.num (ratInt ((i+1 : Nat) : Int))) with
          | none =>
            rw [hg] at heq
            exact absurd heq (by simp)
          | some w =>
            rw [hg] at heq
            simp only [Option.getD_some] at heq
            have hmem := tget_some_mem hg
            constructor
            · exact mem_tblRefs.mpr ⟨_, hmem, heq⟩
            · have h3 := (hwtb.2 _ hmem).2
              rw [heq] at h3
              exact h3
        rcases emapM_ok_of_all hall with ⟨ys, hys⟩
        rw [hys]
        exact ⟨_, rfl⟩
      · rw [if_neg harr]
        have hall : ∀ kv ∈ deref H t,
            ∃ y, (match encJ H fuel kv.2 (t :: seen) with
              | .error e => Except.error e
              | .ok j => Except.ok (luaKeyStr kv.1, j)) = .ok y := by
          intro kv hkv
          have hw : ∀ u, kv.2 = .ref u → u ∈ tblRefs (deref H t) ∧ u < H.length := by
            intro u heq
            constructor
            · exact mem_tblRefs.mpr ⟨kv, hkv, heq⟩
            · have h3 := (hwtb.2 kv hkv).2
              rw [heq] at h3
              exact h3
          rcases hchild kv.2 hw with ⟨j, hj⟩
          rw [hj]
          exact ⟨_, rfl⟩
        rcases emapM_ok_of_all hall with ⟨ys, hys⟩
        rw [hys]
        exact ⟨_, rfl⟩

theorem encY_guard (H : Heap) (fuel : Nat) (t : TId) (A : List TId)
    (h : isOkE (encY H fuel (.ref t) A) = true) : t ∉ A := by
  match fuel with
  | 0 => simp [encY, isOkE] at h
  | fuel+1 =>
    intro hmem
    simp only [encY] at h
    rw [if_pos hmem] at h
    simp [isOkE] at h

theorem encY_step (H : Heap) (hwf : wfHeap H = true) (fuel : Nat) (t : TId)
    (A : List TId) (h : isOkE (encY H (fuel+1) (.ref t) A) = true) :
    ∀ u, u ∈ tblRefs (deref H t) → isOkE (encY H fuel (.ref u) (t :: A)) = true := by
  intro u humem
  rcases mem_tblRefs.mp humem with ⟨kv, hkv, hval⟩
  have hwtb := wfTbl_parts (deref_wf hwf t)
  have hne : deref H t ≠ [] := by
    intro h0
    rw [h0] at hkv
    exact absurd hkv (by simp)
  simp only [encY] at h
  by_cases htA : t ∈ A
  · rw [if_pos htA] at h
    simp [isOkE] at h
  · rw [if_neg htA] at h
    by_cases harr : yamlIsArrayG HVal.isNilH (deref H t) = true
    · rw [if_pos harr] at h
      have hkeyb := yamlIsArrayG_keys harr hne kv hkv
      match hk : kv.1 with
      | .str s =>
        rw [hk] at hkeyb
        exact absurd hkeyb (by simp)
      | .num q =>
        rw [hk] at hkeyb
        rw [Bool.and_eq_true, Bool.and_eq_true, decide_eq_true_eq,
          decide_eq_true_eq] at hkeyb
        rcases array_covers_entry hwtb.1 kv hkv q hk hkeyb.1.1 hkeyb.1.2 hkeyb.2
          with ⟨i, hi, hival⟩
        split at h
        · simp [isOkE] at h
        · next ys heq =>
          rcases emapM_ok_mem heq i (List.mem_range.mpr hi) with ⟨y, hy⟩
          rw [hival, hval] at hy
          rw [hy]
          rfl
    · rw [if_neg harr] at h
      split at h
      · simp [isOkE] at h
      · next kvs heq =>
        rcases emapM_ok_mem heq kv hkv with ⟨y, hy⟩
        rw [hval] at hy
        rw [if_neg (by simp [HVal.isNilH])] at hy
        split at hy
        · exact Except.noConfusion hy
        · next j henc =>
          rw [henc]
          rfl

theorem encY_total (H : Heap) (hwf : wfHeap H = true) :
    ∀ (fuel : Nat) (v : HVal) (seen : List TId),
      (∀ u, v = .ref u → u < H.length) →
      SeenInv H seen →
      H.length + 1 ≤ fuel + seen.length →
      (∃ j, encY H fuel v seen = .ok j) ∨ encY H fuel v seen = .error .cyclic := by
  intro fuel
  induction fuel with
  | zero =>
    intro v seen _ hinv hbound
    exfalso
    have := seenInv_length hinv
    omega
  | succ fuel ih =>
    intro v seen hv hinv hbound
    match v with
    | .nil => exact Or.inl ⟨_, rfl⟩
    | .boolean b => exact Or.inl ⟨_, rfl⟩
    | .num q => exact Or.inl ⟨_, rfl⟩
    | .str s => exact Or.inl ⟨_, rfl⟩
    | .ref t =>
      have ht : t < H.length := hv t rfl
      simp only [encY]
      by_cases htA : t ∈ seen
      · rw [if_pos htA]
        exact Or.inr rfl
      · rw [if_neg htA]
        have hinv2 : SeenInv H (t :: seen) := seenInv_cons hinv ht htA
        have hbound2 : H.length + 1 ≤ fuel + (t :: seen).length := by
          simp only [List.length_cons]
          omega
        have hwtb := wfTbl_parts (deref_wf hwf t)
        have hchild : ∀ (w : HVal), (∀ u, w = .ref u → u < H.length) →
            (∃ j, encY H fuel w (t :: seen) = .ok j) ∨
              encY H fuel w (t :: seen) = .error .cyclic :=
          fun w hw => ih w (t :: seen) hw hinv2 hbound2
        by_cases harr : yamlIsArrayG HVal.isNilH (deref H t) = true
        · rw [if_pos harr]
          have hall : ∀ i ∈ List.range (lua_objlen HVal.isNilH (deref H t)),
              (∃ y, encY H fuel
                ((tget (deref H t) (.num (ratInt ((i+1 : Nat) : Int)))).getD .nil)
                (t :: seen) = .ok y) ∨
              encY H fuel
                ((tget (deref H t) (.num (ratInt ((i+1 : Nat) : Int)))).getD .nil)
                (t :: seen) = .error .cyclic := by
            intro i _
            apply hchild
            intro u heq
            match hg : tget (deref H t) (.num (ratInt ((i+1 : Nat) : Int))) with
            | none =>
              rw [hg] at heq
              exact absurd heq (by simp)
            | some w =>
              rw [hg] at heq
              simp only [Option.getD_some] at heq
              have hmem := tget_some_mem hg
              have h3 := (hwtb.2 _ hmem).2
              rw [heq] at h3
              exact h3
          rcases emapM_ok_or_err hall with ⟨ys, hys⟩ | hys
          · rw [hys]
            exact Or.inl ⟨_, rfl⟩
          · rw [hys]
            exact Or.inr rfl
        · rw [if_neg harr]
          have hall : ∀ kv ∈ deref H t,
              (∃ y, (if kv.2.isNilH then Except.ok none
                else match encY H fuel kv.2 (t :: seen) with
                  | .error e => Except.error e
                  | .ok y => Except.ok (some (luaKeyStr kv.1, y))) = .ok y) ∨
              (if kv.2.isNilH then Except.ok none
                else match encY H fuel kv.2 (t :: seen) with
                  | .error e => Except.error e
                  | .ok y => Except.ok (some (luaKeyStr kv.1, y))) = .error SErr.cyclic := by
            intro kv hkv
            by_cases hnil : kv.2.isNilH = true
            · rw [if_pos hnil]
              exact Or.inl ⟨_, rfl⟩
            · rw [if_neg hnil]
              have hw : ∀ u, kv.2 = .ref u → u < H.length := by
                intro u heq
                have h3 := (hwtb.2 kv hkv).2
                rw [heq] at h3
                exact h3
              rcases hchild kv.2 hw with ⟨j, hj⟩ | hj
              · rw [hj]
                exact Or.inl ⟨_, rfl⟩
              · rw [hj]
                exact Or.inr rfl
          rcases emapM_ok_or_err hall with ⟨ys, hys⟩ | hys
          · rw [hys]
            exact Or.inl ⟨_, rfl⟩
          · rw [hys]
            exact Or.inr rfl

theorem encY_acyclic (H : Heap) (hwf : wfHeap H = true)
    (hacy : ∀ u, ¬ SelfRef H u) :
    ∀ (fuel : Nat) (v : HVal) (seen : List TId),
      (∀ u, v = .ref u → u < H.length ∧ ∀ n w, WalkN H [] n u w → w ∉ seen) →
      SeenInv H seen →
      H.length + 1 ≤ fuel + seen.length →
      ∃ j, encY H fuel v seen = .ok j := by
  intro fuel
  induction fuel with
  | zero =>
    intro v seen _ hinv hbound
    exfalso
    have := seenInv_length hinv
    omega
  | succ fuel ih =>
    intro v seen hv hinv hbound
    match v with
    | .nil => exact ⟨_, rfl⟩
    | .boolean b => exact ⟨_, rfl⟩
    | .num q => exact ⟨_, rfl⟩
    | .str s => exact ⟨_, rfl⟩
    | .ref t =>
      obtain ⟨ht, hreach⟩ := hv t rfl
      have htA : t ∉ seen := hreach 0 t ⟨rfl, by simp⟩
      simp only [encY]
      rw [if_neg htA]
      have hinv2 : SeenInv H (t :: seen) := seenInv_cons hinv ht htA
      have hbound2 : H.length + 1 ≤ fuel + (t :: seen).length := by
        simp only [List.length_cons]
        omega
      have hwtb := wfTbl_parts (deref_wf hwf t)
      have hchild : ∀ (w : HVal),
          (∀ u, w = .ref u → u ∈ tblRefs (deref H t) ∧ u < H.length) →
          ∃ j, encY H fuel w (t :: seen) = .ok j := by
        intro w hw
        apply ih w (t :: seen) ?_ hinv2 hbound2
        intro u heq
        obtain ⟨hut, hur⟩ := hw u heq
        refine ⟨hur, ?_⟩
        intro n x hwalk
        have hwalk2 : WalkN H [] (n+1) t x := ⟨by simp, u, hut, hwalk⟩
        intro hxmem
        rcases List.mem_cons.mp hxmem with heq2 | hxseen
        · subst heq2
          rcases walk_pos_last H n x x hwalk2 with ⟨m, w2, hmw, hwb⟩
          exact hacy x ⟨m, w2, hmw, hwb⟩
        · exact hreach (n+1) x hwalk2 hxseen
      by_cases harr : yamlIsArrayG HVal.isNilH (deref H t) = true
      · rw [if_pos harr]
        have hall : ∀ i ∈ List.range (lua_objlen HVal.isNilH (deref H t)),
            ∃ y, encY H fuel
              ((tget (deref H t) (.num (ratInt ((i+1 : Nat) : Int)))).getD .nil)
              (t :: seen) = .ok y := by
          intro i _
          apply hchild
          intro u heq
          match hg : tget (deref H t) (.num (ratInt ((i+1 : Nat) : Int))) with
          | none =>
            rw [hg] at heq
            exact absurd heq (by simp)
          | some w =>
            rw [hg] at heq
            simp only [Option.getD_some] at heq
            have hmem := tget_some_mem hg
            constructor
            · exact mem_tblRefs.mpr ⟨_, hmem, heq⟩
            · have h3 := (hwtb.2 _ hmem).2
              rw [heq] at h3
              exact h3
        rcases emapM_ok_of_all hall with ⟨ys, hys⟩
        rw [hys]
        exact ⟨_, rfl⟩
      · rw [if_neg harr]
        have hall : ∀ kv ∈ deref H t,
            ∃ y, (if kv.2.isNilH then Except.ok none
              else match encY H fuel kv.2 (t :: seen) with
                | .error e => Except.error e
                | .ok y => Except.ok (some (luaKeyStr kv.1, y))) = .ok y := by
          intro kv hkv
          by_cases hnil : kv.2.isNilH = true
          · rw [if_pos hnil]
            exact ⟨_, rfl⟩
          · rw [if_neg hnil]
            have hw : ∀ u, kv.2 = .ref u → u ∈ tblRefs (deref H t) ∧ u < H.length := by
              intro u heq
              constructor
              · exact mem_tblRefs.mpr ⟨kv, hkv, heq⟩
              · have h3 := (hwtb.2 kv hkv).2
                rw [heq] at h3
                exact h3
            rcases hchild kv.2 hw with ⟨j, hj⟩
            rw [hj]
            exact ⟨_, rfl⟩
        rcases emapM_ok_of_all hall with ⟨ys, hys⟩
        rw [hys]
        exact ⟨_, rfl⟩

/-- With the buggy classifier, `encode_lua_array` is only ever reached for an
empty table, on which it immediately returns the empty array. -/
theorem encTomlArray_empty {H : Heap} {u : TId} (hd : deref H u = []) :
    ∀ (fuel : Nat) (seen : List TId), 1 ≤ fuel →
      encTomlArray H fuel u seen = .ok (.tarr []) := by
  intro fuel seen hf
  match fuel with
  | f+1 =>
    simp only [encTomlArray, hd]
    rfl

theorem encTomlTable_guard (H : Heap) (fuel : Nat) (t : TId) (A : List TId)
    (h : isOkE (encTomlTable H fuel t A) = true) : t ∉ A := by
  match fuel with
  | 0 => simp [encTomlTable, isOkE] at h
  | fuel+1 =>
    intro hmem
    simp only [encTomlTable] at h
    rw [if_pos hmem] at h
    simp [isOkE] at h

theorem encTomlTable_step (H : Heap) (fuel : Nat) (t : TId)
    (A : List TId) (h : isOkE (encTomlTable H (fuel+1) t A) = true) :
    ∀ u, u ∈ tblRefs (deref H t) → tblRefs (deref H u) ≠ [] →
      isOkE (encTomlTable H fuel u (t :: A)) = true := by
  intro u humem hune
  rcases mem_tblRefs.mp humem with ⟨kv, hkv, hval⟩
  have harr : tomlIsArrayG HVal.isNilH (deref H u) = false := by
    rw [tomlIsArrayG_eq_isEmpty]
    rw [List.isEmpty_eq_false_iff_exists_mem]
    match hd : deref H u with
    | [] =>
      rw [hd] at hune
      exact absurd rfl hune
    | kv2 :: rest => exact ⟨kv2, List.mem_cons_self _ _⟩
  simp only [encTomlTable] at h
  by_cases htA : t ∈ A
  · rw [if_pos htA] at h
    simp [isOkE] at h
  · rw [if_neg htA] at h
    split at h
    · simp [isOkE] at h
    · next kvs heq =>
      rcases emapM_ok_mem heq kv hkv with ⟨y, hy⟩
      rw [hval] at hy
      simp only at hy
      rw [if_neg (by rw [harr]; exact Bool.false_ne_true)] at hy
      split at hy
      · exact Except.noConfusion hy
      · next j henc =>
        rw [henc]
        rfl

theorem encTomlTable_total (H : Heap) (hwf : wfHeap H = true) :
    ∀ (fuel : Nat) (t : TId) (seen : List TId),
      t < H.length →
      SeenInv H seen →
      H.length + 1 ≤ fuel + seen.length →
      (∃ j, encTomlTable H fuel t seen = .ok j) ∨
        encTomlTable H fuel t seen = .error .cyclic := by
  intro fuel
  induction fuel with
  | zero =>
    intro t seen _ hinv hbound
    exfalso
    have := seenInv_length hinv
    omega
  | succ fuel ih =>
    intro t seen ht hinv hbound
    simp only [encTomlTable]
    by_cases htA : t ∈ seen
    · rw [if_pos htA]
      exact Or.inr rfl
    · rw [if_neg htA]
      have hinv2 : SeenInv H (t :: seen) := seenInv_cons hinv ht htA
      have hlen2 := seenInv_length hinv2
      simp only [List.length_cons] at hlen2
      have hbound2 : H.length + 1 ≤ fuel + (t :: seen).length := by
        simp only [List.length_cons]
        omega
      have hf1 : 1 ≤ fuel := by omega
      have hwtb := wfTbl_parts (deref_wf hwf t)
      have hall : ∀ kv ∈ deref H t,
          (∃ y, (match kv.2 with
            | .str s => Except.ok (luaKeyStr kv.1, TomlV.ts (cstr s))
            | .num q => Except.ok (luaKeyStr kv.1, TomlV.tn q)
            | .boolean b => Except.ok (luaKeyStr kv.1, TomlV.tb b)
            | .ref u =>
              if tomlIsArrayG HVal.isNilH (deref H u) then
                match encTomlArray H fuel u (t :: seen) with
                | .error e => Except.error e
                | .ok a => Except.ok (luaKeyStr kv.1, a)
              else
                match encTomlTable H fuel u (t :: seen) with
                | .error e => Except.error e
                | .ok tb2 => Except.ok (luaKeyStr kv.1, tb2)
            | .nil => Except.error SErr.unsupported) = .ok y) ∨
          (match kv.2 with
            | .str s => Except.ok (luaKeyStr kv.1, TomlV.ts (cstr s))
            | .num q => Except.ok (luaKeyStr kv.1, TomlV.tn q)
            | .boolean b => Except.ok (luaKeyStr kv.1, TomlV.tb b)
            | .ref u =>
              if tomlIsArrayG HVal.isNilH (deref H u) then
                match encTomlArray H fuel u (t :: seen) with
                | .error e => Except.error e
                | .ok a => Except.ok (luaKeyStr kv.1, a)
              else
                match encTomlTable H fuel u (t :: seen) with
                | .error e => Except.error e
                | .ok tb2 => Except.ok (luaKeyStr kv.1, tb2)
            | .nil => Except.error SErr.unsupported) = .error SErr.cyclic := by
        intro kv hkv
        have hparts := hwtb.2 kv hkv
        match hv : kv.2 with
        | .str s => exact Or.inl ⟨_, rfl⟩
        | .num q => exact Or.inl ⟨_, rfl⟩
        | .boolean b => exact Or.inl ⟨_, rfl⟩
        | .nil =>
          exfalso
          have h2 := hparts.1
          rw [hv] at h2
          simp [HVal.isNilH] at h2
        | .ref u =>
          show (∃ y, (if tomlIsArrayG HVal.isNilH (deref H u) then
              match encTomlArray H fuel u (t :: seen) with
              | .error e => Except.error e
              | .ok a => Except.ok (luaKeyStr kv.1, a)
            else
              match encTomlTable H fuel u (t :: seen) with
              | .error e => Except.error e
              | .ok tb2 => Except.ok (luaKeyStr kv.1, tb2)) = .ok y) ∨
            (if tomlIsArrayG HVal.isNilH (deref H u) then
              match encTomlArray H fuel u (t :: seen) with
              | .error e => Except.error e
              | .ok a => Except.ok (luaKeyStr kv.1, a)
            else
              match encTomlTable H fuel u (t :: seen) with
              | .error e => Except.error e
              | .ok tb2 => Except.ok (luaKeyStr kv.1, tb2)) = .error SErr.cyclic
          have hu : u < H.length := by
            have h3 := hparts.2
            rw [hv] at h3
            exact h3
          by_cases harr : tomlIsArrayG HVal.isNilH (deref H u) = true
          · rw [if_pos harr]
            have hd : deref H u = [] := by
              rw [tomlIsArrayG_eq_isEmpty, List.isEmpty_iff] at harr
              exact harr
            rw [encTomlArray_empty hd fuel (t :: seen) hf1]
            exact Or.inl ⟨_, rfl⟩
          · rw [if_neg harr]
            rcases ih u (t :: seen) hu hinv2 hbound2 with ⟨j, hj⟩ | hj
            · rw [hj]
              exact Or.inl ⟨_, rfl⟩
            · rw [hj]
              exact Or.inr rfl
      rcases emapM_ok_or_err hall with ⟨ys, hys⟩ | hys
      · rw [hys]
        exact Or.inl ⟨_, rfl⟩
      · rw [hys]
        exact Or.inr rfl

theorem encTomlTable_acyclic (H : Heap) (hwf : wfHeap H = true)
    (hacy : ∀ u, ¬ SelfRef H u) :
    ∀ (fuel : Nat) (t : TId) (seen : List TId),
      t < H.length →
      (∀ n w, WalkN H [] n t w → w ∉ seen) →
      SeenInv H seen →
      H.length + 1 ≤ fuel + seen.length →
      ∃ j, encTomlTable H fuel t seen = .ok j := by
  intro fuel
  induction fuel with
  | zero =>
    intro t seen _ _ hinv hbound
    exfalso
    have := seenInv_length hinv
    omega
  | succ fuel ih =>
    intro t seen ht hreach hinv hbound
    have htA : t ∉ seen := hreach 0 t ⟨rfl, by simp⟩
    simp only [encTomlTable]
    rw [if_neg htA]
    have hinv2 : SeenInv H (t :: seen) := seenInv_cons hinv ht htA
    have hlen2 := seenInv_length hinv2
    simp only [List.length_cons] at hlen2
    have hbound2 : H.length + 1 ≤ fuel + (t :: seen).length := by
      simp only [List.length_cons]
      omega
    have hf1 : 1 ≤ fuel := by omega
    have hwtb := wfTbl_parts (deref_wf hwf t)
    have hall : ∀ kv ∈ deref H t,
        ∃ y, (match kv.2 with
          | .str s => Except.ok (luaKeyStr kv.1, TomlV.ts (cstr s))
          | .num q => Except.ok (luaKeyStr kv.1, TomlV.tn q)
          | .boolean b => Except.ok (luaKeyStr kv.1, TomlV.tb b)
          | .ref u =>
            if tomlIsArrayG HVal.isNilH (deref H u) then
              match encTomlArray H fuel u (t :: seen) with
              | .error e => Except.error e
              | .ok a => Except.ok (luaKeyStr kv.1, a)
            else
              match encTomlTable H fuel u (t :: seen) with
              | .error e => Except.error e
              | .ok tb2 => Except.ok (luaKeyStr kv.1, tb2)
          | .nil => Except.error SErr.unsupported) = .ok y := by
      intro kv hkv
      have hparts := hwtb.2 kv hkv
      match hv : kv.2 with
      | .str s => exact ⟨_, rfl⟩
      | .num q => exact ⟨_, rfl⟩
      | .boolean b => exact ⟨_, rfl⟩
      | .nil =>
        exfalso
        have h2 := hparts.1
        rw [hv] at h2
        simp [HVal.isNilH] at h2
      | .ref u =>
        show ∃ y, (if tomlIsArrayG HVal.isNilH (deref H u) then
            match encTomlArray H fuel u (t :: seen) with
            | .error e => Except.error e
            | .ok a => Except.ok (luaKeyStr kv.1, a)
          else
            match encTomlTable H fuel u (t :: seen) with
            | .error e => Except.error e
            | .ok tb2 => Except.ok (luaKeyStr kv.1, tb2)) = .ok y
        have hu : u < H.length := by
          have h3 := hparts.2
          rw [hv] at h3
          exact h3
        by_cases harr : tomlIsArrayG HVal.isNilH (deref H u) = true
        · rw [if_pos harr]
          have hd : deref H u = [] := by
            rw [tomlIsArrayG_eq_isEmpty, List.isEmpty_iff] at harr
            exact harr
          rw [encTomlArray_empty hd fuel (t :: seen) hf1]
          exact ⟨_, rfl⟩
        · rw [if_neg harr]
          have hut : u ∈ tblRefs (deref H t) := mem_tblRefs.mpr ⟨kv, hkv, hv⟩
          have hreach2 : ∀ n w, WalkN H [] n u w → w ∉ (t :: seen) := by
            intro n x hwalk
            have hwalk2 : WalkN H [] (n+1) t x := ⟨by simp, u, hut, hwalk⟩
            intro hxmem
            rcases List.mem_cons.mp hxmem with heq2 | hxseen
            · subst heq2
              rcases walk_pos_last H n x x hwalk2 with ⟨m, w2, hmw, hwb⟩
              exact hacy x ⟨m, w2, hmw, hwb⟩
            · exact hreach (n+1) x hwalk2 hxseen
          rcases ih u (t :: seen) hu hreach2 hinv2 hbound2 with ⟨j, hj⟩
          rw [hj]
          exact ⟨_, rfl⟩
    rcases emapM_ok_of_all hall with ⟨ys, hys⟩
    rw [hys]
    exact ⟨_, rfl⟩

/-- A one-table heap whose table holds a reference to itself. -/
def Hcyc6 : Heap := [[(.num (ratInt 1), .ref 0)]]

/-- A two-table heap whose first table references the (empty) second table
twice, as non-nested siblings. -/
def Hsib6 : Heap := [[(.num (ratInt 1), .ref 1), (.num (ratInt 2), .ref 1)], []]

/-- An XML element record whose unrecognized field `foo` refers back to the
record itself. -/
def Hfoo6 : Heap := [[(.str ("tag"), .str ("a")), (.str ("foo"), .ref 0)]]

/-- Claim C6 for the JSON, YAML and TOML encoders: with enough fuel for the
depth the guard can reach, a self-referential table (directly or transitively
through descendant values) fails with the cyclic error in YAML and TOML
unconditionally, and in JSON provided every numeric key of the heap is an
exact integer (without that proviso JSON can succeed, see the counterexample);
on a heap with no self-reference at all (in particular one sharing a table
between two sibling slots) every table serializes successfully in all
three. -/
theorem c6_cycle_guard (H : Heap) (hwf : wfHeap H = true) (t : TId)
    (ht : t < H.length) (fuel : Nat) (hfuel : H.length + 1 ≤ fuel) :
    (SelfRef H t →
      encY H fuel (.ref t) [] = .error .cyclic ∧
      encTomlTable H fuel t [] = .error .cyclic ∧
      (exactHeap H = true → encJ H fuel (.ref t) [] = .error .cyclic)) ∧
    ((∀ u, ¬ SelfRef H u) →
      (∃ j, encJ H fuel (.ref t) [] = .ok j) ∧
      (∃ y, encY H fuel (.ref t) [] = .ok y) ∧
      (∃ v, encTomlTable H fuel t [] = .ok v)) := by
  have hinv0 : SeenInv H [] :=
    ⟨List.nodup_nil, fun x hx => absurd hx (List.not_mem_nil x)⟩
  have hbound0 : H.length + 1 ≤ fuel + ([] : List TId).length := by
    simp only [List.length_nil]
    omega
  constructor
  · intro hself
    refine ⟨?_, ?_, ?_⟩
    · rcases encY_total H hwf fuel (.ref t) []
          (fun u heq => by injection heq with h2; subst h2; exact ht)
          hinv0 hbound0 with ⟨j, hj⟩ | hj
      · exfalso
        exact guard_kills_selfref H (fun f x A => isOkE (encY H f (.ref x) A))
          (fun _ _ => rfl) (fun f x A h => encY_guard H f x A h)
          (fun f x A h u hu _ => encY_step H hwf f x A h u hu)
          fuel t hself (by show isOkE (encY H fuel (.ref t) []) = true; rw [hj]; rfl)
      · exact hj
    · rcases encTomlTable_total H hwf fuel t [] ht hinv0 hbound0 with ⟨j, hj⟩ | hj
      · exfalso
        exact guard_kills_selfref H (fun f x A => isOkE (encTomlTable H f x A))
          (fun _ _ => rfl) (fun f x A h => encTomlTable_guard H f x A h)
          (fun f x A h u hu hune => encTomlTable_step H f x A h u hu hune)
          fuel t hself (by show isOkE (encTomlTable H fuel t []) = true; rw [hj]; rfl)
      · exact hj
    · intro hex
      rcases encJ_total H hwf fuel (.ref t) []
          (fun u heq => by injection heq with h2; subst h2; exact ht)
          hinv0 hbound0 with ⟨j, hj⟩ | hj
      · exfalso
        exact guard_kills_selfref H (fun f x A => isOkE (encJ H f (.ref x) A))
          (fun _ _ => rfl) (fun f x A h => encJ_guard H f x A h)
          (fun f x A h u hu _ => encJ_step H hwf hex f x A h u hu)
          fuel t hself (by show isOkE (encJ H fuel (.ref t) []) = true; rw [hj]; rfl)
      · exact hj
  · intro hacy
    refine ⟨?_, ?_, ?_⟩
    · exact encJ_acyclic H hwf hacy fuel (.ref t) []
        (fun u heq => by
          injection heq with h2
          subst h2
          exact ⟨ht, fun n w _ => List.not_mem_nil w⟩)
        hinv0 hbound0
    · exact encY_acyclic H hwf hacy fuel (.ref t) []
        (fun u heq => by
          injection heq with h2
          subst h2
          exact ⟨ht, fun n w _ => List.not_mem_nil w⟩)
        hinv0 hbound0
    · exact encTomlTable_acyclic H hwf hacy fuel t [] ht
        (fun n w _ => List.not_mem_nil w) hinv0 hbound0

/-- Claim C6 witness: the self-loop heap (whose keys are exact integers) fails
with the cyclic error in JSON, YAML and TOML, and the sibling-sharing heap (no
self-reference) serializes in all three. -/
theorem c6_cycle_guard_witness :
    encY Hcyc6 3 (.ref 0) [] = .error .cyclic ∧
    encTomlTable Hcyc6 3 0 [] = .error .cyclic ∧
    encJ Hcyc6 3 (.ref 0) [] = .error .cyclic ∧
    (∃ j, encJ Hsib6 4 (.ref 0) [] = .ok j) ∧
    (∃ y, encY Hsib6 4 (.ref 0) [] = .ok y) ∧
    (∃ v, encTomlTable Hsib6 4 0 [] = .ok v) := by
  have hself : SelfRef Hcyc6 0 :=
    ⟨0, 0, ⟨rfl, by simp⟩, (by decide : (0 : TId) ∈ tblRefs (deref Hcyc6 0))⟩
  have hedges : ∀ a b, edgeH Hsib6 a b → a = 0 ∧ b = 1 := by
    intro a b h
    match a with
    | 0 =>
      have hb : b ∈ ([1, 1] : List TId) := h
      simp only [List.mem_cons, List.not_mem_nil, or_false] at hb
      rcases hb with hb | hb <;> exact ⟨rfl, hb⟩
    | 1 => exact absurd h (List.not_mem_nil b)
    | n+2 => exact absurd h (List.not_mem_nil b)
  have hno : ∀ u, ¬ SelfRef Hsib6 u := by
    intro u hself2
    rcases hself2 with ⟨n, w, hwalk, hedge⟩
    rcases hedges w u hedge with ⟨hw0, hu1⟩
    subst hw0
    subst hu1
    match n, hwalk with
    | 0, ⟨heq, _⟩ => exact absurd heq (by decide)
    | m+1, ⟨_, c, he2, _⟩ => exact absurd (hedges 1 c he2).1 (by decide)
  have h1 := c6_cycle_guard Hcyc6 (by decide) 0 (by decide) 3 (by decide)
  have h2 := c6_cycle_guard Hsib6 (by decide) 0 (by decide) 4 (by decide)
  obtain ⟨hy, ht, hjf⟩ := h1.1 hself
  obtain ⟨hj2, hy2, ht2⟩ := h2.2 hno
  exact ⟨hy, ht, hjf (by decide), hj2, hy2, ht2⟩

/-- `{[1]="x", [1.5]=self}` as a heap: well-formed (distinct keys, non-nil
values, reference in range), self-referential through the fractional key. -/
def Hfrac6 : Heap := [[(.num (ratInt 1), .str ("x")), (.num q3half, .ref 0)]]

/-- Claim C6 counterexample.  XML: the element record of `Hfoo6` refers to
itself through its `foo` field, so it is self-referential, yet the XML
serializer succeeds (`emit_element` only follows the `children` field).
JSON: the well-formed heap `Hfrac6` (`{[1]="x", [1.5]=self}`) is
self-referential, yet JSON serialize succeeds: `is_array` accepts the key
`1.5` by truncation (`ljsonlib.cpp:169`) and the array branch reads only index
1, never the self-reference. -/
theorem c6_counterexample :
    (SelfRef Hfoo6 0 ∧ xmlserialize Hfoo6 5 0 = .ok ("<a/>\n")) ∧
    (SelfRef Hfrac6 0 ∧ wfHeap Hfrac6 = true ∧
      encJ Hfrac6 3 (.ref 0) [] = .ok (.jarr [.js ("x")])) := by
  refine ⟨⟨?_, rfl⟩, ?_, by decide, rfl⟩
  · exact ⟨0, 0, ⟨rfl, by simp⟩, (by decide : (0 : TId) ∈ tblRefs (deref Hfoo6 0))⟩
  · exact ⟨0, 0, ⟨rfl, by simp⟩, (by decide : (0 : TId) ∈ tblRefs (deref Hfrac6 0))⟩

/-- `{tag="a"}` as a heap. -/
def Hex9a : Heap := [[(.str ("tag"), .str ("a"))]]

/-- `{tag="a", text="x"}` as a heap. -/
def Hex9b : Heap := [[(.str ("tag"), .str ("a")), (.str ("text"), .str ("x"))]]

/-- `{tag="a", attr={id="1"}, children={{tag="b"}}}` as a heap. -/
def Hex9c : Heap :=
  [[(.str ("tag"), .str ("a")), (.str ("attr"), .ref 1),
    (.str ("children"), .ref 2)],
   [(.str ("id"), .str ("1"))],
   [(.num (ratInt 1), .ref 3)],
   [(.str ("tag"), .str ("b"))]]

/-- Claim C9: the XML emitter produces exactly the spec's text on the three
examples; escaping replaces exactly the five special characters and no other
(text and attribute values go through the same `xml_escape_append`); and in
general an element with no attributes, no text and no children emits the
indented self-closing tag followed by a newline. -/
theorem c9_xml_emission :
    (xmlserialize Hex9a 5 0 = .ok ("<a/>\n") ∧
     xmlserialize Hex9b 5 0 = .ok ("<a>x</a>\n") ∧
     xmlserialize Hex9c 5 0 = .ok ("<a id=\"1\">\n\t<b/>\n</a>\n")) ∧
    (xmlEscChar '&' = "&amp;" ∧ xmlEscChar '<' = "&lt;" ∧
     xmlEscChar '>' = "&gt;" ∧ xmlEscChar '"' = "&quot;" ∧
     xmlEscChar '\'' = "&apos;" ∧
     (∀ c : Char, c ≠ '&' → c ≠ '<' → c ≠ '>' → c ≠ '"' → c ≠ '\'' →
        xmlEscChar c = String.singleton c)) ∧
    (∀ (H : Heap) (fuel : Nat) (t : TId) (seen : List TId) (depth : Nat)
        (tag : String),
      t ∉ seen →
      tget (deref H t) (.str ("tag")) = some (.str tag) →
      tag.length ≠ 0 →
      tget (deref H t) (.str ("attr")) = none →
      tget (deref H t) (.str ("text")) = none →
      tget (deref H t) (.str ("children")) = none →
      emit_element H (fuel+1) t seen depth =
        .ok (emit_indent depth ++ "<" ++ tag ++ "/>\n")) := by
  refine ⟨⟨rfl, rfl, rfl⟩, ⟨rfl, rfl, rfl, rfl, rfl, ?_⟩, ?_⟩
  · intro c h1 h2 h3 h4 h5
    simp [xmlEscChar, h1, h2, h3, h4, h5]
  · intro H fuel t seen depth tag htA htag hlen hattr htext hchild
    simp only [emit_element]
    rw [if_neg htA]
    simp only [get_field_string, htag, hattr, htext, hchild]
    rw [if_neg hlen]
    simp [String.append_empty]

/-- Claim C9 witness: the self-closing rule applied to a concrete element at
depth 2. -/
theorem c9_xml_emission_witness :
    emit_element [[(.str ("tag"), .str ("c"))]] 7 0 [] 2 =
      .ok (emit_indent 2 ++ "<" ++ "c" ++ "/>\n") := by
  exact c9_xml_emission.2.2 [[(.str ("tag"), .str ("c"))]] 6 0 [] 2 "c"
    (by simp) (by decide) (by decide) (by decide) (by decide) (by decide)

/-! ## Claim C10: NUL truncation

Strings are read back as C strings by the encoders: serializing a heap is the
same as serializing the heap with every string truncated at its first NUL. -/

theorem takeWhile_idem {α} (p : α → Bool) :
    ∀ l : List α, (l.takeWhile p).takeWhile p = l.takeWhile p := by
  intro l
  induction l with
  | nil => rfl
  | cons x xs ih =>
    by_cases h : p x = true
    · rw [List.takeWhile_cons, if_pos h, List.takeWhile_cons, if_pos h, ih]
    · rw [List.takeWhile_cons, if_neg h]
      rfl

theorem cstr_idem (s : String) : cstr (cstr s) = cstr s := by
  unfold cstr
  exact congrArg String.mk (takeWhile_idem _ s.data)

/-- Truncating a key at its first NUL (numbers are unchanged). -/
def truncKey : LKey → LKey
  | .num q => .num q
  | .str s => .str (cstr s)

/-- Truncating a heap value at its first NUL. -/
def truncHV : HVal → HVal
  | .str s => .str (cstr s)
  | v => v

def truncTbl (tb : HTbl) : HTbl := tb.map fun kv => (truncKey kv.1, truncHV kv.2)

def truncHeap (H : Heap) : Heap := H.map truncTbl

theorem truncTbl_eq (tb : HTbl) :
    truncTbl tb = tb.map fun kv => (truncKey kv.1, truncHV kv.2) := rfl

theorem truncHV_isNil (v : HVal) : (truncHV v).isNilH = v.isNilH := by
  cases v <;> rfl

theorem luaKeyStr_trunc (k : LKey) : luaKeyStr (truncKey k) = luaKeyStr k := by
  cases k with
  | num q => rfl
  | str s => exact cstr_idem s

theorem tget_cons {α} (k' : LKey) (v : α) (rest : List (LKey × α)) (k : LKey) :
    tget ((k', v) :: rest) k = if k' = k then some v else tget rest k := rfl

theorem tget_trunc_num (tb : HTbl) (r : Rat) :
    tget (truncTbl tb) (.num r) = (tget tb (.num r)).map truncHV := by
  induction tb with
  | nil => rfl
  | cons kv rest ih =>
    rcases kv with ⟨k, v⟩
    show tget ((truncKey k, truncHV v) :: truncTbl rest) (.num r) =
      (tget ((k, v) :: rest) (.num r)).map truncHV
    rw [tget_cons, tget_cons]
    match k with
    | .num q =>
      by_cases h : q = r
      · subst h
        rw [if_pos (show truncKey (LKey.num q) = LKey.num q from rfl), if_pos rfl]
        rfl
      · have h2 : LKey.num q ≠ LKey.num r := by
          intro he
          cases he
          exact h rfl
        have h1 : truncKey (LKey.num q) ≠ LKey.num r := h2
        rw [if_neg h1, if_neg h2]
        exact ih
    | .str s =>
      have h1 : truncKey (LKey.str s) ≠ LKey.num r := by
        intro he
        exact LKey.noConfusion he
      have h2 : LKey.str s ≠ LKey.num r := by
        intro he
        exact LKey.noConfusion he
      rw [if_neg h1, if_neg h2]
      exact ih

theorem presentNN_trunc (tb : HTbl) (i : Nat) :
    presentNN HVal.isNilH (truncTbl tb) i = presentNN HVal.isNilH tb i := by
  unfold presentNN
  rw [tget_trunc_num]
  cases h : tget tb (.num (ratInt i)) with
  | none => rfl
  | some v =>
    show (!(truncHV v).isNilH) = (!v.isNilH)
    rw [truncHV_isNil]

theorem denseFrom_trunc (tb : HTbl) : ∀ (fuel n : Nat),
    denseFrom HVal.isNilH (truncTbl tb) n fuel = denseFrom HVal.isNilH tb n fuel := by
  intro fuel
  induction fuel with
  | zero => intro n; rfl
  | succ f ih =>
    intro n
    simp only [denseFrom, presentNN_trunc]
    by_cases h : presentNN HVal.isNilH tb (n+1) = true
    · rw [if_pos h, if_pos h, ih]
    · rw [if_neg h, if_neg h]

theorem objlen_trunc (tb : HTbl) :
    lua_objlen HVal.isNilH (truncTbl tb) = lua_objlen HVal.isNilH tb := by
  have hlen : (truncTbl tb).length = tb.length := List.length_map _ _
  unfold lua_objlen
  rw [hlen, denseFrom_trunc]

theorem truncTbl_isEmpty (tb : HTbl) : (truncTbl tb).isEmpty = tb.isEmpty := by
  cases tb <;> rfl

theorem deref_trunc (H : Heap) : ∀ t, deref (truncHeap H) t = truncTbl (deref H t) := by
  induction H with
  | nil => intro t; rfl
  | cons tb rest ih =>
    intro t
    cases t with
    | zero => rfl
    | succ n => exact ih n

theorem jsonIsArrayG_trunc (tb : HTbl) :
    jsonIsArrayG HVal.isNilH (truncTbl tb) = jsonIsArrayG HVal.isNilH tb := by
  unfold jsonIsArrayG
  rw [objlen_trunc, truncTbl_isEmpty]
  by_cases h : (lua_objlen HVal.isNilH tb == 0 && tb.isEmpty) = true
  · rw [if_pos h, if_pos h]
  · rw [if_neg h, if_neg h]
    congr 1
    · apply all_congrB
      intro i _
      rw [presentNN_trunc]
    · rw [truncTbl_eq, List.all_map]
      apply all_congrB
      intro kv _
      rcases kv with ⟨k, v⟩
      match k with
      | .num q => rfl
      | .str s => rfl

theorem yamlIsArrayG_trunc (tb : HTbl) :
    yamlIsArrayG HVal.isNilH (truncTbl tb) = yamlIsArrayG HVal.isNilH tb := by
  unfold yamlIsArrayG
  rw [objlen_trunc, truncTbl_isEmpty]
  by_cases h : tb.isEmpty = true
  · rw [if_pos h, if_pos h]
  · rw [if_neg h, if_neg h]
    congr 1
    · apply all_congrB
      intro i _
      rw [presentNN_trunc]
    · rw [truncTbl_eq, List.all_map]
      apply all_congrB
      intro kv _
      rcases kv with ⟨k, v⟩
      match k with
      | .num q => rfl
      | .str s => rfl

theorem tomlIsArrayG_deref_trunc (H : Heap) (u : TId) :
    tomlIsArrayG HVal.isNilH (deref (truncHeap H) u) =
      tomlIsArrayG HVal.isNilH (deref H u) := by
  rw [tomlIsArrayG_eq_isEmpty, tomlIsArrayG_eq_isEmpty, deref_trunc, truncTbl_isEmpty]

theorem encJ_trunc (H : Heap) : ∀ (fuel : Nat) (v : HVal) (seen : List TId),
    encJ (truncHeap H) fuel (truncHV v) seen = encJ H fuel v seen := by
  intro fuel
  induction fuel with
  | zero => intro v seen; rfl
  | succ fuel ih =>
    intro v seen
    match v with
    | .nil => rfl
    | .boolean b => rfl
    | .num q => rfl
    | .str s =>
      show Except.ok (Json.js (cstr (cstr s))) = Except.ok (Json.js (cstr s))
      rw [cstr_idem]
    | .ref t =>
      show encJ (truncHeap H) (fuel+1) (.ref t) seen = encJ H (fuel+1) (.ref t) seen
      simp only [encJ]
      by_cases htA : t ∈ seen
      · rw [if_pos htA, if_pos htA]
      · rw [if_neg htA, if_neg htA, deref_trunc, jsonIsArrayG_trunc, objlen_trunc]
        by_cases harr : jsonIsArrayG HVal.isNilH (deref H t) = true
        · rw [if_pos harr, if_pos harr]
          have he : emapM (fun i => encJ (truncHeap H) fuel
                ((tget (truncTbl (deref H t))
                  (.num (ratInt ((i+1 : Nat) : Int)))).getD .nil) (t :: seen))
              (List.range (lua_objlen HVal.isNilH (deref H t))) =
            emapM (fun i => encJ H fuel
                ((tget (deref H t)
                  (.num (ratInt ((i+1 : Nat) : Int)))).getD .nil) (t :: seen))
              (List.range (lua_objlen HVal.isNilH (deref H t))) := by
            apply emapM_congr
            intro i _
            rw [tget_trunc_num]
            cases hx : tget (deref H t) (.num (ratInt ((i+1 : Nat) : Int))) with
            | none => exact ih .nil (t :: seen)
            | some w => exact ih w (t :: seen)
          rw [he]
        · rw [if_neg harr, if_neg harr]
          have he : emapM (fun kv =>
                match encJ (truncHeap H) fuel kv.2 (t :: seen) with
                | .error e => Except.error e
                | .ok j => Except.ok (luaKeyStr kv.1, j)) (truncTbl (deref H t)) =
            emapM (fun kv =>
                match encJ H fuel kv.2 (t :: seen) with
                | .error e => Except.error e
                | .ok j => Except.ok (luaKeyStr kv.1, j)) (deref H t) := by
            rw [truncTbl_eq, emapM_map]
            apply emapM_congr
            intro kv _
            show (match encJ (truncHeap H) fuel (truncHV kv.2) (t :: seen) with
                | .error e => Except.error e
                | .ok j => Except.ok (luaKeyStr (truncKey kv.1), j)) =
              (match encJ H fuel kv.2 (t :: seen) with
                | .error e => Except.error e
                | .ok j => Except.ok (luaKeyStr kv.1, j))
            rw [ih kv.2 (t :: seen), luaKeyStr_trunc]
          rw [he]

theorem encY_trunc (H : Heap) : ∀ (fuel : Nat) (v : HVal) (seen : List TId),
    encY (truncHeap H) fuel (truncHV v) seen = encY H fuel v seen := by
  intro fuel
  induction fuel with
  | zero => intro v seen; rfl
  | succ fuel ih =>
    intro v seen
    match v with
    | .nil => rfl
    | .boolean b => rfl
    | .num q => rfl
    | .str s =>
      show Except.ok (YNode.ys (cstr (cstr s))) = Except.ok (YNode.ys (cstr s))
      rw [cstr_idem]
    | .ref t =>
      show encY (truncHeap H) (fuel+1) (.ref t) seen = encY H (fuel+1) (.ref t) seen
      simp only [encY]
      by_cases htA : t ∈ seen
      · rw [if_pos htA, if_pos htA]
      · rw [if_neg htA, if_neg htA, deref_trunc, yamlIsArrayG_trunc, objlen_trunc]
        by_cases harr : yamlIsArrayG HVal.isNilH (deref H t) = true
        · rw [if_pos harr, if_pos harr]
          have he : emapM (fun i => encY (truncHeap H) fuel
                ((tget (truncTbl (deref H t))
                  (.num (ratInt ((i+1 : Nat) : Int)))).getD .nil) (t :: seen))
              (List.range (lua_objlen HVal.isNilH (deref H t))) =
            emapM (fun i => encY H fuel
                ((tget (deref H t)
                  (.num (ratInt ((i+1 : Nat) : Int)))).getD .nil) (t :: seen))
              (List.range (lua_objlen HVal.isNilH (deref H t))) := by
            apply emapM_congr
            intro i _
            rw [tget_trunc_num]
            cases hx : tget (deref H t) (.num (ratInt ((i+1 : Nat) : Int))) with
            | none => exact ih .nil (t :: seen)
            | some w => exact ih w (t :: seen)
          rw [he]
        · rw [if_neg harr, if_neg harr]
          have he : emapM (fun kv =>
                if kv.2.isNilH then Except.ok none
                else
                  match encY (truncHeap H) fuel kv.2 (t :: seen) with
                  | .error e => Except.error e
                  | .ok y => Except.ok (some (luaKeyStr kv.1, y))) (truncTbl (deref H t)) =
            emapM (fun kv =>
                if kv.2.isNilH then Except.ok none
                else
                  match encY H fuel kv.2 (t :: seen) with
                  | .error e => Except.error e
                  | .ok y => Except.ok (some (luaKeyStr kv.1, y))) (deref H t) := by
            rw [truncTbl_eq, emapM_map]
            apply emapM_congr
            intro kv _
            show (if (truncHV kv.2).isNilH then Except.ok none
                else
                  match encY (truncHeap H) fuel (truncHV kv.2) (t :: seen) with
                  | .error e => Except.error e
                  | .ok y => Except.ok (some (luaKeyStr (truncKey kv.1), y))) =
              (if kv.2.isNilH then Except.ok none
                else
                  match encY H fuel kv.2 (t :: seen) with
                  | .error e => Except.error e
                  | .ok y => Except.ok (some (luaKeyStr kv.1, y)))
            rw [truncHV_isNil]
            by_cases hnil : kv.2.isNilH = true
            · rw [if_pos hnil, if_pos hnil]
            · rw [if_neg hnil, if_neg hnil, ih kv.2 (t :: seen), luaKeyStr_trunc]
          rw [he]

theorem encToml_trunc (H : Heap) : ∀ fuel : Nat,
    (∀ (t : TId) (seen : List TId),
      encTomlTable (truncHeap H) fuel t seen = encTomlTable H fuel t seen) ∧
    (∀ (a : TId) (seen : List TId),
      encTomlArray (truncHeap H) fuel a seen = encTomlArray H fuel a seen) := by
  intro fuel
  induction fuel with
  | zero => exact ⟨fun t seen => rfl, fun a seen => rfl⟩
  | succ fuel ih =>
    constructor
    · intro t seen
      simp only [encTomlTable]
      by_cases htA : t ∈ seen
      · rw [if_pos htA, if_pos htA]
      · rw [if_neg htA, if_neg htA, deref_trunc]
        have he : emapM (fun kv =>
              match kv.2 with
              | .str s => Except.ok (luaKeyStr kv.1, TomlV.ts (cstr s))
              | .num q => Except.ok (luaKeyStr kv.1, TomlV.tn q)
              | .boolean b => Except.ok (luaKeyStr kv.1, TomlV.tb b)
              | .ref u =>
                if tomlIsArrayG HVal.isNilH (deref (truncHeap H) u) then
                  match encTomlArray (truncHeap H) fuel u (t :: seen) with
                  | .error e => Except.error e
                  | .ok a => Except.ok (luaKeyStr kv.1, a)
                else
                  match encTomlTable (truncHeap H) fuel u (t :: seen) with
                  | .error e => Except.error e
                  | .ok tb2 => Except.ok (luaKeyStr kv.1, tb2)
              | .nil => Except.error SErr.unsupported) (truncTbl (deref H t)) =
          emapM (fun kv =>
              match kv.2 with
              | .str s => Except.ok (luaKeyStr kv.1, TomlV.ts (cstr s))
              | .num q => Except.ok (luaKeyStr kv.1, TomlV.tn q)
              | .boolean b => Except.ok (luaKeyStr kv.1, TomlV.tb b)
              | .ref u =>
                if tomlIsArrayG HVal.isNilH (deref H u) then
                  match encTomlArray H fuel u (t :: seen) with
                  | .error e => Except.error e
                  | .ok a => Except.ok (luaKeyStr kv.1, a)
                else
                  match encTomlTable H fuel u (t :: seen) with
                  | .error e => Except.error e
                  | .ok tb2 => Except.ok (luaKeyStr kv.1, tb2)
              | .nil => Except.error SErr.unsupported) (deref H t) := by
          rw [truncTbl_eq, emapM_map]
          apply emapM_congr
          intro kv _
          rcases kv with ⟨k, w⟩
          match w with
          | .nil => rfl
          | .str s =>
            show Except.ok (luaKeyStr (truncKey k), TomlV.ts (cstr (cstr s))) =
              Except.ok (luaKeyStr k, TomlV.ts (cstr s))
            rw [cstr_idem, luaKeyStr_trunc]
          | .num q =>
            show Except.ok (luaKeyStr (truncKey k), TomlV.tn q) =
              Except.ok (luaKeyStr k, TomlV.tn q)
            rw [luaKeyStr_trunc]
          | .boolean b =>
            show Except.ok (luaKeyStr (truncKey k), TomlV.tb b) =
              Except.ok (luaKeyStr k, TomlV.tb b)
            rw [luaKeyStr_trunc]
          | .ref u =>
            show (if tomlIsArrayG HVal.isNilH (deref (truncHeap H) u) then
                (match encTomlArray (truncHeap H) fuel u (t :: seen) with
                | .error e => Except.error e
                | .ok a =>
                  Except.ok (luaKeyStr (truncKey k), a) : Except SErr (String × TomlV))
              else
                (match encTomlTable (truncHeap H) fuel u (t :: seen) with
                | .error e => Except.error e
                | .ok tb2 =>
                  Except.ok (luaKeyStr (truncKey k), tb2) : Except SErr (String × TomlV))) =
              (if tomlIsArrayG HVal.isNilH (deref H u) then
                (match encTomlArray H fuel u (t :: seen) with
                | .error e => Except.error e
                | .ok a => Except.ok (luaKeyStr k, a) : Except SErr (String × TomlV))
              else
                (match encTomlTable H fuel u (t :: seen) with
                | .error e => Except.error e
                | .ok tb2 => Except.ok (luaKeyStr k, tb2) : Except SErr (String × TomlV)))
            rw [tomlIsArrayG_deref_trunc, ih.1 u (t :: seen), ih.2 u (t :: seen),
              luaKeyStr_trunc]
        rw [he]
    · intro a seen
      simp only [encTomlArray]
      rw [deref_trunc, objlen_trunc]
      have he : emapM (fun i =>
            match (tget (truncTbl (deref H a))
                (.num (ratInt ((i+1 : Nat) : Int)))).getD .nil with
            | .str s => Except.ok (TomlV.ts (cstr s))
            | .num q => Except.ok (TomlV.tn q)
            | .boolean b => Except.ok (TomlV.tb b)
            | .ref u =>
              if tomlIsArrayG HVal.isNilH (deref (truncHeap H) u) then
                encTomlArray (truncHeap H) fuel u seen
              else encTomlTable (truncHeap H) fuel u seen
            | .nil => Except.error SErr.unsupported)
          (List.range (lua_objlen HVal.isNilH (deref H a))) =
        emapM (fun i =>
            match (tget (deref H a)
                (.num (ratInt ((i+1 : Nat) : Int)))).getD .nil with
            | .str s => Except.ok (TomlV.ts (cstr s))
            | .num q => Except.ok (TomlV.tn q)
            | .boolean b => Except.ok (TomlV.tb b)
            | .ref u =>
              if tomlIsArrayG HVal.isNilH (deref H u) then encTomlArray H fuel u seen
              else encTomlTable H fuel u seen
            | .nil => Except.error SErr.unsupported)
          (List.range (lua_objlen HVal.isNilH (deref H a))) := by
        apply emapM_congr
        intro i _
        rw [tget_trunc_num]
        cases hx : tget (deref H a) (.num (ratInt ((i+1 : Nat) : Int))) with
        | none => rfl
        | some w =>
          match w with
          | .nil => rfl
          | .num q => rfl
          | .boolean b => rfl
          | .str s =>
            show Except.ok (TomlV.ts (cstr (cstr s))) = Except.ok (TomlV.ts (cstr s))
            rw [cstr_idem]
          | .ref u =>
            show (if tomlIsArrayG HVal.isNilH (deref (truncHeap H) u) then
                encTomlArray (truncHeap H) fuel u seen
              else encTomlTable (truncHeap H) fuel u seen) =
              (if tomlIsArrayG HVal.isNilH (deref H u) then encTomlArray H fuel u seen
              else encTomlTable H fuel u seen)
            rw [tomlIsArrayG_deref_trunc, ih.1 u seen, ih.2 u seen]
      rw [he]

/-- The element record `{tag="a\x00b"}`: its tag has an embedded NUL byte. -/
def HnulC10 : Heap := [[(.str ("tag"), .str ("a\x00b"))]]

/-- Claim C10: serializing a heap is the same as serializing the heap with
every string (key or value) truncated at its first NUL byte, for the JSON,
YAML and TOML encoders; the XML escape of text and attribute values reads the
string as a C string as well. -/
theorem c10_nul_truncation (H : Heap) :
    (∀ (fuel : Nat) (v : HVal) (seen : List TId),
      encJ (truncHeap H) fuel (truncHV v) seen = encJ H fuel v seen) ∧
    (∀ (fuel : Nat) (v : HVal) (seen : List TId),
      encY (truncHeap H) fuel (truncHV v) seen = encY H fuel v seen) ∧
    (∀ (fuel : Nat) (t : TId) (seen : List TId),
      encTomlTable (truncHeap H) fuel t seen = encTomlTable H fuel t seen) ∧
    (∀ s : String, xml_escape_append (cstr s) = xml_escape_append s) := by
  refine ⟨encJ_trunc H, encY_trunc H, fun fuel => (encToml_trunc H fuel).1, ?_⟩
  intro s
  unfold xml_escape_append
  rw [cstr_idem]

/-- Claim C10 counterexample (XML): the tag is emitted with its full length
(`std::string(tag, tagLen)`, `lxmllib.cpp:205`), so serializing `{tag="a\x00b"}`
and serializing its NUL-truncated variant give different outputs. -/
theorem c10_counterexample :
    xmlserialize HnulC10 5 0 = .ok ("<a\x00b/>\n") ∧
    xmlserialize (truncHeap HnulC10) 5 0 = .ok ("<a/>\n") ∧
    ("<a\x00b/>\n" : String) ≠ "<a/>\n" := by
  exact ⟨rfl, rfl, by decide⟩
